import Mathlib

/-!
Verification of the MiniPy2 parsing core (src/parser of isaacev/MiniPy2)
against its natural-language specification.

The development shallowly embeds the TypeScript sources:
  * `src/parser/grammar.ts`    — character classifiers and the keyword table
  * `src/parser/token.ts`      — token kinds, the kind → symbol mapping, tokens
  * `src/parser/lexer.ts`      — the indentation-tracking scanner
  * `src/parser/error.ts`      — the syntax-error value
  * `src/parser/ast.ts`        — AST node variants and their text rendering
  * `src/parser/parser.ts`     — the TDOP expression / statement parser
  * `src/parser/preprocess.ts` — the trailing-whitespace trim

JavaScript strings are modelled as `List Char`; the scanner's mutable state
is threaded explicitly through a `LexState` record, and the lexer state
functions of lexer.ts become a `Mode` tag plus one total Lean function per
state function.  The `nextToken` driver loop runs on fuel (the loop makes
progress on every iteration, so the canonical fuel `2*(remaining input)+6`
dominates the loop's real measure); a fuel exhaustion result (`.diverge`)
never occurs on the runs analysed below.  Exceptions thrown by the
TypeScript code (the scanner's raw `throw new Error(...)`, the parser's
`throw new SyntaxError(...)`, and the dynamic type error of invoking a
missing table entry) are modelled as explicit result constructors so that
the different failure channels stay distinguishable.
-/

set_option maxRecDepth 20000

namespace MiniPy

/-! ## grammar.ts — character classifiers -/

/-- grammar.ts: the end-of-input sentinel character (a null character). -/
def EOFc : Char := '\x00'

/-- grammar.ts `isEOF`. -/
def isEOFc (c : Char) : Bool := c == EOFc

/-- grammar.ts `isLineBreak`. -/
def isLineBreak (c : Char) : Bool := c == '\n'

/-- grammar.ts `isInlineWhitespace`: `c <= ' '` and not a line break and not EOF. -/
def isInlineWhitespace (c : Char) : Bool :=
  decide (c.toNat ≤ 32) && !isLineBreak c && !isEOFc c

/-- grammar.ts `isComment`. -/
def isComment (c : Char) : Bool := c == '#'

/-- grammar.ts `isOperatorStart`: membership in the fixed 13-character list. -/
def isOperatorStart (c : Char) : Bool :=
  ['-', ',', ';', ':', '!', '(', ')', '[', ']', '*', '/', '+', '='].contains c

/-- grammar.ts `isDoubleQuote`. -/
def isDoubleQuote (c : Char) : Bool := c == '"'

/-- grammar.ts `isDigit`. -/
def isDigit (c : Char) : Bool := decide ('0'.toNat ≤ c.toNat) && decide (c.toNat ≤ '9'.toNat)

/-- grammar.ts `isLetter`. -/
def isLetter (c : Char) : Bool :=
  (decide ('a'.toNat ≤ c.toNat) && decide (c.toNat ≤ 'z'.toNat)) ||
  (decide ('A'.toNat ≤ c.toNat) && decide (c.toNat ≤ 'Z'.toNat))

/-- grammar.ts `isAlphaNumeric`. -/
def isAlphaNumeric (c : Char) : Bool := c == '_' || isLetter c || isDigit c

/-! ## token.ts — token kinds and tokens -/

/-- token.ts `TokenType`.  The enum in token.ts omits `LessThan` and
`GreaterThan`, yet lexer.ts emits `TokenType.LessThan` / `TokenType.GreaterThan`
and the lexer test suite checks for them, so the two members are included here
under those names (the names the rest of the code uses). -/
inductive TokenType where
  | Error | EOF | Indent | Dedent
  | Ident | And | Not | Or | If | Elif | Else | While
  | Bool | Num | Str
  | Asterisk | Colon | SemiColon | Bang | Comma | Dash
  | LeftBracket | LeftParen | Plus | RightBracket | RightParen | Slash | Assign
  | LessThan | GreaterThan
deriving DecidableEq, Repr

/-- token.ts `tokenTypeToSymbol`: punctuation kinds map to their literal
character; every other kind falls through to the `TokenType[typ]` default,
which in TypeScript produces the enum member's declared name. -/
def tokenTypeToSymbol : TokenType → String
  | .Asterisk => "*"
  | .Colon => ":"
  | .SemiColon => ";"
  | .Bang => "!"
  | .Comma => ","
  | .Dash => "-"
  | .LeftBracket => "["
  | .LeftParen => "("
  | .Plus => "+"
  | .RightBracket => "]"
  | .RightParen => ")"
  | .Slash => "/"
  | .Assign => "="
  | .Error => "Error"
  | .EOF => "EOF"
  | .Indent => "Indent"
  | .Dedent => "Dedent"
  | .Ident => "Ident"
  | .And => "And"
  | .Not => "Not"
  | .Or => "Or"
  | .If => "If"
  | .Elif => "Elif"
  | .Else => "Else"
  | .While => "While"
  | .Bool => "Bool"
  | .Num => "Num"
  | .Str => "Str"
  | .LessThan => "LessThan"
  | .GreaterThan => "GreaterThan"

/-- token.ts `Token`: kind, literal text, source offset. -/
structure Token where
  type : TokenType
  literal : String
  loc : Nat
deriving DecidableEq, Repr

/-- token.ts `Token#toSymbol`. -/
def Token.toSymbol (t : Token) : String := tokenTypeToSymbol t.type

/-- grammar.ts `keywords` table (grammar.ts lines 72–77).  The source writes
the values as `TokenType.KeywordIf` &c.; the TokenType enum of token.ts
declares those members as `If`/`Elif`/`Else`/`While`, the names under which
parser.ts and the lexer test suite use them. -/
def keywords (w : String) : Option TokenType :=
  if w = "if" then some .If
  else if w = "elif" then some .Elif
  else if w = "else" then some .Else
  else if w = "while" then some .While
  else none

/-- grammar.ts `isKeyword`. -/
def isKeyword (w : String) : Bool := (keywords w).isSome

/-! ## lexer.ts — scanner state and primitive cursor operations -/

/-- One tag per lexer state function of lexer.ts (`stateFn`); `stuck` stands
for the `null` state installed by `emitError`. -/
inductive Mode where
  | any | lineBreak | comment | operator | str | num | identMode | eof | stuck
deriving DecidableEq, Repr

/-- lexer.ts `Lexer`: input, cursor start/pos, current state function,
pending-token buffer, indentation stack (bottom of the JS array = bottom of
the stack; the top is the last element, as in the source). -/
structure LexState where
  input : List Char
  start : Nat
  pos : Nat
  mode : Mode
  buffer : List Token
  indentStack : List Nat
deriving DecidableEq, Repr

/-- lexer.ts `new Lexer(input)`. -/
def initLex (input : List Char) : LexState :=
  ⟨input, 0, 0, .any, [], [0]⟩

/-- `input.slice(start, pos)` of lexer.ts `currentSlice`, as a string. -/
def LexState.currentSlice (s : LexState) : String :=
  ⟨(s.input.drop s.start).take (s.pos - s.start)⟩

/-- lexer.ts `peekChar`: the character at `pos`, or the EOF sentinel once
`pos` reaches the input's length. -/
def LexState.peekChar (s : LexState) : Char :=
  if s.pos < s.input.length then s.input.getD s.pos EOFc else EOFc

/-- lexer.ts `nextChar`: like `peekChar` but advances `pos` when a real
character was read. -/
def LexState.nextChar (s : LexState) : Char × LexState :=
  if s.pos < s.input.length then (s.input.getD s.pos EOFc, { s with pos := s.pos + 1 })
  else (EOFc, s)

/-- lexer.ts `ignore`. -/
def LexState.ignore (s : LexState) : LexState := { s with start := s.pos }

/-- lexer.ts `backupChar`. -/
def LexState.backup (s : LexState) : LexState := { s with pos := s.pos - 1 }

/-- lexer.ts `emit`: package `[start,pos)` as a token, append it to the
pending buffer, reset `start`. -/
def LexState.emitTok (s : LexState) (t : TokenType) : LexState :=
  { s with buffer := s.buffer ++ [⟨t, s.currentSlice, s.start⟩], start := s.pos }

/-- lexer.ts `emitError`: append an error token carrying the message, then
back the cursor up one character.  (The caller installs the `null` state.) -/
def LexState.emitError (s : LexState) (msg : String) : LexState :=
  { s with buffer := s.buffer ++ [⟨.Error, msg, s.start⟩], pos := s.pos - 1 }

/-- lexer.ts `accept`: consume one character if it is in `valid`, otherwise
restore `pos` (unless the sentinel EOF was read). -/
def LexState.accept (s : LexState) (valid : List Char) : Bool × LexState :=
  let (c, s1) := s.nextChar
  if valid.contains c then (true, s1)
  else if c == EOFc then (false, s1)
  else (false, s1.backup)

/-- Loop body of lexer.ts `acceptRun` (the previous character was
accepted), written by structural recursion on the input suffix from `pos`:
read the next character, return on EOF, keep consuming members of `valid`,
and back up over the first non-member. -/
def acceptRunGo (valid : List Char) : List Char → LexState → LexState
  | [], s => s
  | c :: rest, s =>
    let s1 : LexState := { s with pos := s.pos + 1 }
    if c == EOFc then s1
    else if valid.contains c then acceptRunGo valid rest s1
    else s1.backup

/-- lexer.ts `acceptRun`: greedily consume members of `valid`.  (As in the
source, when the very first read hits the sentinel EOF the final
`backupChar` still runs.) -/
def LexState.acceptRun (s : LexState) (valid : List Char) : LexState :=
  let (c, s1) := s.nextChar
  if valid.contains c then acceptRunGo valid (s1.input.drop s1.pos) s1 else s1.backup

/-- lexer.ts `getLineCol`: scan the input from the beginning, counting line
breaks, until the offset is reached (1-based line and column). -/
def getLineColGo : List Char → Nat → Nat → Nat → Nat × Nat
  | [], _, line, col => (line, col)
  | _ :: _, 0, line, col => (line, col)
  | c :: rest, loc + 1, line, col =>
    if isLineBreak c then getLineColGo rest loc (line + 1) 1
    else getLineColGo rest loc line (col + 1)

/-- lexer.ts `getLineCol` on a given input and offset. -/
def getLineCol (input : List Char) (loc : Nat) : Nat × Nat :=
  getLineColGo input loc 1 1

/-! ## lexer.ts — the state functions -/

/-- lexer.ts `clearIndentTo`: while the requested depth is below the top of
the indentation stack, emit one Dedent and pop (the emit happens before the
pop, as in the source; an empty stack stops the loop, mirroring the JS
comparison against `undefined`).  The loop pops one entry per iteration, so
recursing on the stack length is exact. -/
def clearIndentToGo (d : Nat) : Nat → LexState → LexState
  | 0, s => s
  | k + 1, s =>
    match s.indentStack.getLast? with
    | none => s
    | some top =>
      if d < top then
        clearIndentToGo d k { s.emitTok .Dedent with indentStack := s.indentStack.dropLast }
      else s

/-- lexer.ts `clearIndentTo`. -/
def clearIndentToF (d : Nat) (s : LexState) : LexState :=
  clearIndentToGo d s.indentStack.length s

/-- lexer.ts `lexAny` as structural recursion on the input suffix from
`pos`: skip inline whitespace, then dispatch on the first significant
character (the checks appear in source order; an exhausted suffix is the
sentinel-EOF read). -/
def lexAnyGo : List Char → LexState → LexState × Mode
  | [], s => (s, .eof)
  | r :: rest, s =>
    let s1 : LexState := { s with pos := s.pos + 1 }
    if isEOFc r then (s1, .eof)
    else if isLineBreak r then (s1, .lineBreak)
    else if isInlineWhitespace r then lexAnyGo rest s1.ignore
    else if isComment r then (s1, .comment)
    else if isOperatorStart r then (s1.backup, .operator)
    else if isDoubleQuote r then (s1, .str)
    else if isDigit r then (s1.backup, .num)
    else if isAlphaNumeric r then (s1.backup, .identMode)
    else (s1.emitError ("unexpected symbol: '" ++ ⟨[r]⟩ ++ "'"), .stuck)

/-- lexer.ts `lexAny`. -/
def lexAnyF (s : LexState) : LexState × Mode :=
  lexAnyGo (s.input.drop s.pos) s

/-- lexer.ts `lexEOF`: force the indentation back to depth 0, then emit an
EOF token; the lexer stays in the EOF state. -/
def lexEOFF (s : LexState) : LexState × Mode :=
  ((clearIndentToF 0 s).emitTok .EOF, .eof)

/-- The skip loop at the top of lexer.ts `lexLineBreak` (structural on the
input suffix from `pos`): consume and discard any further
immediately-consecutive line breaks. -/
def skipLineBreaksGo : List Char → LexState → LexState
  | [], s => s
  | c :: rest, s =>
    if c == '\n' then skipLineBreaksGo rest { s with pos := s.pos + 1, start := s.pos + 1 }
    else s

/-- The `while (isLineBreak(peekChar()))` loop of lexer.ts `lexLineBreak`. -/
def skipLineBreaks (s : LexState) : LexState :=
  skipLineBreaksGo (s.input.drop s.pos) s

/-- lexer.ts `getIndentDepth`: measure the run of leading spaces, then
discard it. -/
def getIndentDepth (s : LexState) : Nat × LexState :=
  let s1 := s.acceptRun [' ']
  (s1.currentSlice.length, s1.ignore)

/-- The depth comparison at the end of lexer.ts `lexLineBreak`: compare the
measured depth with the stack top, pushing + emitting an Indent when it
grew, unwinding with Dedents when it shrank (an empty stack, impossible in
real runs, mirrors the JS comparison against `undefined`: both `>` and `<`
are false, so nothing happens). -/
def lexLineBreakCompare (depth : Nat) (s3 : LexState) : LexState × Mode :=
  match s3.indentStack.getLast? with
  | none => (s3, .any)
  | some prev =>
    if depth > prev then
      (({ s3 with indentStack := s3.indentStack ++ [depth] }).emitTok .Indent, .any)
    else if depth < prev then (clearIndentToF depth s3, .any)
    else (s3, .any)

/-- lexer.ts `lexLineBreak`: collapse blank lines, switch to EOF handling at
end of input, reject a whitespace-only line of nonzero depth by **throwing**
(`throw new Error('no trailing whitespace')`, modelled as `.error`), then
compare the measured depth with the stack top. -/
def lexLineBreakF (s0 : LexState) : Except String (LexState × Mode) :=
  let s1 := s0.ignore
  let s2 := skipLineBreaks s1
  if isEOFc s2.peekChar then .ok (s2, .eof)
  else
    let d := getIndentDepth s2
    if d.1 > 0 && isLineBreak d.2.peekChar then .error "no trailing whitespace"
    else .ok (lexLineBreakCompare d.1 d.2)

/-- lexer.ts `lexComment` (structural on the input suffix from `pos`):
discard characters through the end of the line or input; no token. -/
def lexCommentGo : List Char → LexState → LexState
  | [], s => s.ignore
  | r :: rest, s =>
    let s1 : LexState := { s with pos := s.pos + 1 }
    if isEOFc r || isLineBreak r then s1.ignore
    else lexCommentGo rest s1

/-- lexer.ts `lexComment`. -/
def lexCommentF (s : LexState) : LexState :=
  lexCommentGo (s.input.drop s.pos) s

/-- lexer.ts `lexOperator`: classify one punctuation character into exactly
one token.  The default arm is the documented internal-inconsistency guard. -/
def lexOperatorF (s : LexState) : LexState × Mode :=
  let p := s.nextChar
  let r := p.1
  let s1 := p.2
  if r == '-' then (s1.emitTok .Dash, .any)
  else if r == ',' then (s1.emitTok .Comma, .any)
  else if r == ':' then (s1.emitTok .Colon, .any)
  else if r == ';' then (s1.emitTok .SemiColon, .any)
  else if r == '!' then (s1.emitTok .Bang, .any)
  else if r == '(' then (s1.emitTok .LeftParen, .any)
  else if r == ')' then (s1.emitTok .RightParen, .any)
  else if r == '[' then (s1.emitTok .LeftBracket, .any)
  else if r == ']' then (s1.emitTok .RightBracket, .any)
  else if r == '*' then (s1.emitTok .Asterisk, .any)
  else if r == '/' then (s1.emitTok .Slash, .any)
  else if r == '+' then (s1.emitTok .Plus, .any)
  else if r == '<' then (s1.emitTok .LessThan, .any)
  else if r == '=' then (s1.emitTok .Assign, .any)
  else if r == '>' then (s1.emitTok .GreaterThan, .any)
  else (s1.emitError ("unexpected symbol: '" ++ ⟨[r]⟩ ++ "'"), .stuck)

/-- lexer.ts `lexString` (structural on the input suffix from `pos`): scan
to the closing double quote; a line break or end of input first is the
fatal "unterminated string" error token. -/
def lexStringGo : List Char → LexState → LexState × Mode
  | [], s => (s.emitError "unterminated string", .stuck)
  | r :: rest, s =>
    let s1 : LexState := { s with pos := s.pos + 1 }
    if isEOFc r || isLineBreak r then (s1.emitError "unterminated string", .stuck)
    else if isDoubleQuote r then (s1.emitTok .Str, .any)
    else lexStringGo rest s1

/-- lexer.ts `lexString`. -/
def lexStringF (s : LexState) : LexState × Mode :=
  lexStringGo (s.input.drop s.pos) s

/-- The digit characters accepted by lexer.ts `lexNumber`. -/
def digitChars : List Char := ['0', '1', '2', '3', '4', '5', '6', '7', '8', '9']

/-- lexer.ts `lexNumber`: digits, optional fraction, optional exponent; an
identifier character immediately after is the "bad number syntax" error. -/
def lexNumberF (s0 : LexState) : LexState × Mode :=
  let s1 := s0.acceptRun digitChars
  let s2 :=
    if s1.peekChar == '.' then (s1.nextChar).2.acceptRun digitChars
    else s1
  let a := s2.accept ['e', 'E']
  let s3 :=
    if a.1 then ((a.2.accept ['+', '-']).2).acceptRun digitChars
    else a.2
  if isAlphaNumeric s3.peekChar then
    let s4 := (s3.nextChar).2
    (s4.emitError ("bad number syntax: '" ++ s4.currentSlice ++ "'"), .stuck)
  else (s3.emitTok .Num, .any)

/-- The keyword / boolean-literal / identifier classification at the end of
lexer.ts `lexIdentifier`. -/
def finishWord (s : LexState) : LexState × Mode :=
  let word := s.currentSlice
  if isKeyword word then (s.emitTok ((keywords word).getD .Ident), .any)
  else if word = "True" || word = "False" then (s.emitTok .Bool, .any)
  else (s.emitTok .Ident, .any)

/-- lexer.ts `lexIdentifier` (structural on the input suffix from `pos`):
absorb a maximal run of identifier characters, back up over the delimiter
(unless it was the EOF sentinel), classify via `finishWord`. -/
def lexIdentifierGo : List Char → LexState → LexState × Mode
  | [], s => finishWord s
  | r :: rest, s =>
    let s1 : LexState := { s with pos := s.pos + 1 }
    if isAlphaNumeric r then lexIdentifierGo rest s1
    else if isEOFc r then finishWord s1
    else finishWord s1.backup

/-- lexer.ts `lexIdentifier`. -/
def lexIdentifierF (s : LexState) : LexState × Mode :=
  lexIdentifierGo (s.input.drop s.pos) s

/-- One invocation of the current state function (`this.state(this)` in
lexer.ts `nextToken`), returning the updated scanner and the next state.
A thrown JS exception surfaces as `.error`. -/
def stepMode (m : Mode) (s : LexState) : Except String (LexState × Mode) :=
  match m with
  | .any => .ok (lexAnyF s)
  | .lineBreak => lexLineBreakF s
  | .comment => .ok (lexCommentF s, .any)
  | .operator => .ok (lexOperatorF s)
  | .str => .ok (lexStringF s)
  | .num => .ok (lexNumberF s)
  | .identMode => .ok (lexIdentifierF s)
  | .eof => .ok (lexEOFF s)
  | .stuck => .ok (s, .stuck)

/-- Result of one lexer.ts `nextToken` call: a token plus the successor
scanner state, a thrown JS exception, or (model artefact) fuel exhaustion
standing for an infinite loop. -/
inductive LexRes where
  | tok (t : Token) (s : LexState)
  | thrown (msg : String)
  | diverge
deriving DecidableEq, Repr

/-- The delivery step at the bottom of the lexer.ts `nextToken` loop: take
the front of the buffer if there is one; an error token is put back (the
`unshift`) so that it is delivered again on every subsequent call. -/
def deliver (s : LexState) : Option (Token × LexState) :=
  match s.buffer with
  | [] => none
  | t :: rest =>
    if t.type = .Error then some (t, s) else some (t, { s with buffer := rest })

/-- One iteration of the lexer.ts `nextToken` loop body: run the current
state function (when it is not `null`), then try to deliver the front of
the buffer; `.inl` ends the call with a result, `.inr` continues the loop. -/
def pump1 (s : LexState) : LexRes ⊕ LexState :=
  match s.mode with
  | .stuck =>
    match deliver s with
    | some (t, s') => .inl (.tok t s')
    | none => .inl .diverge
  | m =>
    match stepMode m s with
    | .error msg => .inl (.thrown msg)
    | .ok (s1, m1) =>
      match deliver { s1 with mode := m1 } with
      | some (t, s') => .inl (.tok t s')
      | none => .inr { s1 with mode := m1 }

/-- The driver loop of lexer.ts `nextToken`, iterating `pump1` on fuel. -/
def pump : Nat → LexState → LexRes
  | 0, _ => .diverge
  | n + 1, s =>
    match pump1 s with
    | .inl r => r
    | .inr s2 => pump n s2

/-- lexer.ts `nextToken`.  Every loop iteration that emits nothing strictly
decreases `2*(input.length − pos) + weight(state)` with weights ≤ 4, so the
chosen fuel dominates the loop's runtime and `.diverge` is unreachable from
real scanner states. -/
def nextToken (s : LexState) : LexRes :=
  pump (2 * (s.input.length - s.pos) + 6) s

/-- Call `nextToken` up to `n` times from `s`, collecting the returned
tokens; stop early if a call throws or diverges. -/
def lexRun : Nat → LexState → List Token × LexState
  | 0, s => ([], s)
  | n + 1, s =>
    match nextToken s with
    | .tok t s' =>
      let r := lexRun n s'
      (t :: r.1, r.2)
    | _ => ([], s)

end MiniPy

namespace MiniPy

/-! ## ast.ts — AST node variants -/

mutual
/-- ast.ts expression variants (`Ident`, `BoolLit`, `NumLit`, `StrLit`,
`ArrLit`, `UnaryExpr`, `BinaryExpr`), each carrying its tokens. -/
inductive Expr where
  | ident (token : Token)
  | boolLit (token : Token)
  | numLit (token : Token)
  | strLit (token : Token)
  | arrLit (leftBracket : Token) (elems : List Expr) (rightBracket : Token)
  | unaryExpr (token : Token) (a : Expr)
  | binaryExpr (token : Token) (a : Expr) (b : Expr)

/-- ast.ts statement variants.  `whileStmt` is modelled from the spec:
parser.ts constructs `new ast.WhileStmt(cond, clause)` and spec §3 lists the
`WhileStmt` variant (condition expression, block), but ast.ts itself declares
no `WhileStmt` class. -/
inductive Stmt where
  | exprStmt (expr : Expr)
  | ifStmt (ifCond : Expr) (ifClause : Block) (elifClauses : List ElifClause)
      (elseClause : Option Block)
  | whileStmt (cond : Expr) (clause : Block)

/-- ast.ts `Block`: ordered sequence of statements. -/
inductive Block where
  | mk (stmts : List Stmt)

/-- ast.ts `ElifClause`: condition expression plus block. -/
inductive ElifClause where
  | mk (elifCond : Expr) (elifClause : Block)
end

/-- ast.ts `Program`: ordered sequence of top-level statements. -/
structure Program where
  stmts : List Stmt

/-- The statement list of a `Block`. -/
def Block.stmts : Block → List Stmt
  | .mk l => l

/-! ## ast.ts — canonical textual rendering (`toString`) -/

/-- The whitespace characters removed by the JavaScript `String#trim` used in
the if-statement rendering (the renders only ever carry `'\n'` and `' '` at
their ends, so the ASCII whitespace set suffices). -/
def isJsTrimWs (c : Char) : Bool :=
  [' ', '\t', '\n', '\x0d', '\x0b', '\x0c'].contains c

/-- JavaScript `String#trim`. -/
def jsTrim (str : String) : String :=
  ⟨((str.toList.dropWhile isJsTrimWs).reverse.dropWhile isJsTrimWs).reverse⟩

/-- Split a character list at every `'\n'` (JavaScript `split('\n')`). -/
def linesOf : List Char → List (List Char)
  | [] => [[]]
  | c :: rest =>
    if c == '\n' then [] :: linesOf rest
    else
      match linesOf rest with
      | [] => [[c]]
      | l :: ls => (c :: l) :: ls

/-- JavaScript `str.split('\n')`. -/
def splitNL (str : String) : List String :=
  (linesOf str.toList).map (fun l => ⟨l⟩)

/-- The `.split('\n').map(line => '\n  ' + line).join('')` reindentation
used by the if-statement rendering in ast.ts. -/
def reindent (str : String) : String :=
  ((splitNL str).map (fun line => "\n  " ++ line)).foldl (· ++ ·) ""

mutual
/-- ast.ts `toString` of the expression classes. -/
def renderExpr : Expr → String
  | .ident t => t.literal
  | .boolLit t => t.literal
  | .numLit t => t.literal
  | .strLit t => t.literal
  | .arrLit _ elems _ => "[" ++ renderArrElems elems ++ " ]"
  | .unaryExpr t a => "(" ++ t.literal ++ " " ++ renderExpr a ++ ")"
  | .binaryExpr t a b =>
    "(" ++ t.literal ++ " " ++ renderExpr a ++ " " ++ renderExpr b ++ ")"

/-- The `reduce((out, elem) => out + ' ' + elem.toString(), '')` of
ast.ts `ArrLit#toString`. -/
def renderArrElems : List Expr → String
  | [] => ""
  | e :: rest => renderArrElemsGo (" " ++ renderExpr e) rest

/-- Left fold continuation for `renderArrElems`. -/
def renderArrElemsGo (acc : String) : List Expr → String
  | [] => acc
  | e :: rest => renderArrElemsGo (acc ++ " " ++ renderExpr e) rest

/-- ast.ts `toString` of the statement classes.  `whileStmt` has no
`toString` in ast.ts (the class is absent, see `Stmt.whileStmt`); it is
rendered as the empty string and is not relied on by any theorem below. -/
def renderStmt : Stmt → String
  | .exprStmt e => renderExpr e
  | .ifStmt c ifc elifs els =>
    "(if (" ++ renderExpr c ++ ")" ++ reindent (jsTrim (renderBlock ifc)) ++
      (if elifs.length > 0 then reindent (jsTrim (renderElifs elifs)) else "") ++
      (match els with
       | some b => reindent (jsTrim (renderBlock b))
       | none => "") ++ ")"
  | .whileStmt _ _ => ""

/-- ast.ts `Block#toString`: `reduce` prefixing the first statement with
`'\n('` and later ones with `'\n '`, closed by `')'`. -/
def renderBlock : Block → String
  | .mk [] => ")"
  | .mk (s0 :: rest) => "\n(" ++ renderStmt s0 ++ renderBlockGo rest ++ ")"

/-- Tail of the `reduce` in ast.ts `Block#toString`. -/
def renderBlockGo : List Stmt → String
  | [] => ""
  | s :: rest => "\n " ++ renderStmt s ++ renderBlockGo rest

/-- ast.ts `ElifClause#toString`. -/
def renderElif : ElifClause → String
  | .mk c b => "\n(elif (" ++ renderExpr c ++ ")" ++ reindent (jsTrim (renderBlock b)) ++ ")"

/-- The `map(clause => clause.toString()).join('')` in ast.ts
`IfStmt#toString`. -/
def renderElifs : List ElifClause → String
  | [] => ""
  | e :: rest => renderElif e ++ renderElifs rest
end

/-- ast.ts `Program#toString`: statement renderings joined by line breaks. -/
def renderProgram (p : Program) : String :=
  match p.stmts.map renderStmt with
  | [] => ""
  | s :: rest => rest.foldl (fun a b => a ++ "\n" ++ b) s

/-! ## parser.ts — precedence and dispatch tables -/

/-- parser.ts `PrecLevel`, as the numeric values of the TypeScript enum:
Lowest 0, Assignment 1, Equals 2, Relative 3, Sum 4, Product 5, the unary
level 6, Attribute 7. -/
def precLowest : Nat := 0

/-- parser.ts `PrecLevel.Assignment`. -/
def precAssignment : Nat := 1

/-- parser.ts unary level (`PrecLevel` member between Product and
Attribute, used by the unary construction rule). -/
def precUnary : Nat := 6

/-- parser.ts `precTable`: operator symbol → precedence level. -/
def precTable (sym : String) : Option Nat :=
  if sym = "=" then some 1
  else if sym = "==" then some 2
  else if sym = "!=" then some 2
  else if sym = "<" then some 3
  else if sym = ">" then some 3
  else if sym = "<=" then some 3
  else if sym = ">=" then some 3
  else if sym = "+" then some 4
  else if sym = "-" then some 4
  else if sym = "*" then some 5
  else if sym = "/" then some 5
  else if sym = "(" then some 7
  else if sym = "[" then some 7
  else if sym = "." then some 7
  else none

/-- The construction rules of parser.ts `prefixParselets` (the TDOP "nud"
table): token symbol → rule. -/
inductive NudRule where
  | identR | boolR | numR | strR | arrR | groupR | unaryR
deriving DecidableEq, Repr

/-- parser.ts `prefixParselets` lookup (key = token symbol). -/
def nudTable (sym : String) : Option NudRule :=
  if sym = "Ident" then some .identR
  else if sym = "Bool" then some .boolR
  else if sym = "Num" then some .numR
  else if sym = "Str" then some .strR
  else if sym = "[" then some .arrR
  else if sym = "(" then some .groupR
  else if sym = "-" then some .unaryR
  else if sym = "!" then some .unaryR
  else none

/-- parser.ts `infixParselets` lookup: the eleven keys all map to the binary
construction rule, so the lookup result is just key membership. -/
def ledHasRule (sym : String) : Bool :=
  ["+", "-", "*", "/", "==", "!=", "<", ">", "<=", ">=", "="].contains sym

/-! ## parser.ts — parser state, failure channel, token helpers -/

/-- parser.ts `SyntaxError` / other failures observable from a parse.
`syn` is a thrown `SyntaxError` (message, 1-based line/column);
`thrownErr` is a raw JS exception propagating out of the scanner;
`typeErr` is the dynamic type error of invoking a missing table entry
(`infixParselet(...)` when the lookup produced `undefined`); `noFuel` is
the model's fuel-exhaustion artefact (also used for machine states that
cannot arise). -/
inductive PErr where
  | syn (msg : String) (line : Nat) (col : Nat)
  | thrownErr (msg : String)
  | typeErr (msg : String)
  | noFuel
deriving DecidableEq, Repr

/-- parser.ts `Parser`: the scanner plus the one-token lookahead
(`currToken`). -/
structure PState where
  lexer : LexState
  curr : Token
deriving DecidableEq, Repr

/-- The three ways the parser touches its token stream: pull the next token
(`advanceTokenStream`), read the lookahead (`currToken`), and read the
source text (`this.input`, used by `getLineCol` when errors are built).
The grammar procedures below are written over an abstract source so that
the same code runs both against the real scanner (`realSrc`) and against a
pre-recorded token list (`feedSrc`), connected by the simulation theorems
further down. -/
structure TokSrc (σ : Type) where
  adv : σ → Except PErr σ
  cur : σ → Token
  src : σ → List Char

/-- parser.ts `advanceTokenStream` (on the real scanner). -/
def advanceP (p : PState) : Except PErr PState :=
  match nextToken p.lexer with
  | .tok t s => .ok ⟨s, t⟩
  | .thrown m => .error (.thrownErr m)
  | .diverge => .error .noFuel

/-- The real token source: parser.ts `Parser` pulling from its `Lexer`. -/
def realSrc : TokSrc PState :=
  ⟨advanceP, PState.curr, fun p => p.lexer.input⟩

/-- A pre-recorded token stream: the source text (for `getLineCol`), the
lookahead, and the tokens still to come.  An empty `rest` replays the
lookahead forever — exactly how the real scanner behaves at its EOF /
sticky-error fixpoints. -/
structure PStateT where
  input : List Char
  curr : Token
  rest : List Token
deriving DecidableEq, Repr

/-- Advance of the pre-recorded stream. -/
def feedAdv (s : PStateT) : Except PErr PStateT :=
  match s.rest with
  | [] => .ok s
  | t :: r => .ok ⟨s.input, t, r⟩

/-- The pre-recorded token source. -/
def feedSrc : TokSrc PStateT :=
  ⟨feedAdv, PStateT.curr, PStateT.input⟩

/-- parser.ts `fatalError`: build the SyntaxError for a token from
`lexer.getLineCol(tok.loc)`. -/
def fatalErrorG (ts : TokSrc σ) (s : σ) (tok : Token) (msg : String) : PErr :=
  .syn msg (getLineCol (ts.src s) tok.loc).1 (getLineCol (ts.src s) tok.loc).2

/-- parser.ts `useToken`: consume a token of the required kind or raise
`expected '<symbol>', got '<symbol>'`. -/
def useTokenG (ts : TokSrc σ) (ty : TokenType) (s : σ) : Except PErr (Token × σ) :=
  if (ts.cur s).type = ty then
    match ts.adv s with
    | .ok s' => .ok (ts.cur s, s')
    | .error e => .error e
  else
    .error (fatalErrorG ts s (ts.cur s)
      ("expected '" ++ tokenTypeToSymbol ty ++ "', got '" ++ (ts.cur s).toSymbol ++ "'"))

/-- parser.ts `useAnyToken`. -/
def useAnyTokenG (ts : TokSrc σ) (s : σ) : Except PErr (Token × σ) :=
  match ts.adv s with
  | .ok s' => .ok (ts.cur s, s')
  | .error e => .error e

/-- parser.ts `isStmtTerminator`: `;` or end-of-input. -/
def isStmtTerminatorG (ts : TokSrc σ) (s : σ) : Bool :=
  (ts.cur s).type = .SemiColon || (ts.cur s).type = .EOF

/-- parser.ts `expectStmtTerminator` (failure raises
`unexpected '<symbol>'`). -/
def expectStmtTerminatorG (ts : TokSrc σ) (s : σ) : Except PErr Unit :=
  if isStmtTerminatorG ts s then .ok ()
  else .error (fatalErrorG ts s (ts.cur s) ("unexpected '" ++ (ts.cur s).toSymbol ++ "'"))

/-- parser.ts `expectExprTerminator`: statement terminator, `]`, `)` or `,`
(failure raises `unexpected '<symbol>'`). -/
def expectExprTerminatorG (ts : TokSrc σ) (s : σ) : Except PErr Unit :=
  if isStmtTerminatorG ts s || (ts.cur s).type = .RightBracket
      || (ts.cur s).type = .RightParen || (ts.cur s).type = .Comma then .ok ()
  else .error (fatalErrorG ts s (ts.cur s) ("unexpected '" ++ (ts.cur s).toSymbol ++ "'"))

/-- parser.ts `currPrecedence`: table lookup with Lowest as the default. -/
def currPrecedenceG (ts : TokSrc σ) (s : σ) : Nat :=
  (precTable (ts.cur s).toSymbol).getD 0

/-! ## parser.ts — the parsing procedures as a step machine

The mutually recursive parsing procedures of parser.ts are embedded as a
small-step machine: the call stack of the recursive-descent parser becomes
an explicit stack of continuation frames, and every step of `stepG`
corresponds to a specific stretch of straight-line code in parser.ts
(noted case by case).  This is a standard defunctionalization — the data
flow, the order of token consumption and every error site are exactly
those of the source. -/

/-- A value travelling back from a finished grammar rule to the frame that
awaits it (the return value of a parser.ts parsing function). -/
inductive PVal where
  | expr (e : Expr)
  | stmt (s : Stmt)
  | block (b : Block)
  | prog (pr : Program)

/-- Continuation frames: the pending rest of each parser.ts function that
is waiting for an inner parsing function to return. -/
inductive Frame where
  /-- The `while (currPrecedence() > minPrecedence)` loop of `parseExpr`,
  waiting for the expression accumulated so far. -/
  | ledLoop (minPrec : Nat)
  /-- Tail of `parseBinaryInfixExpr`: operator consumed, waiting for the
  right operand. -/
  | binRhs (oper : Token) (left : Expr)
  /-- Tail of `parseUnaryPrefixExpr`: operator consumed, waiting for the
  operand. -/
  | unaryRhs (oper : Token)
  /-- Tail of `parseExprGroup`: waiting for the inner expression, then
  `useToken(RightParen)`. -/
  | groupClose
  /-- Element collection inside `parseArrLit`: waiting for one element. -/
  | arrCollect (lb : Token) (acc : List Expr)
  /-- Tail of `parseExprStmt`: waiting for the expression, then the
  terminator checks. -/
  | exprStmtEnd
  /-- Body of `Parser#parseBlock`'s loop: waiting for one statement. -/
  | blockCollect (acc : List Stmt)
  /-- `parseIfStmt` after `useToken(If)`: waiting for the condition. -/
  | ifAfterCond
  /-- `parseIfStmt`: waiting for the primary block. -/
  | ifAfterBlock (cond : Expr)
  /-- The elif loop of `parseIfStmt`: waiting for an elif condition. -/
  | elifCond (cond0 : Expr) (blk0 : Block) (acc : List ElifClause)
  /-- The elif loop of `parseIfStmt`: waiting for an elif block. -/
  | elifBlock (cond0 : Expr) (blk0 : Block) (acc : List ElifClause) (condE : Expr)
  /-- `parseIfStmt` after `useToken(Else)`: waiting for the else block. -/
  | elseBlock (cond0 : Expr) (blk0 : Block) (acc : List ElifClause)
  /-- `parseWhileStmt` after `useToken(While)`: waiting for the condition. -/
  | whileAfterCond
  /-- `parseWhileStmt`: waiting for the body block. -/
  | whileAfterBlock (cond : Expr)
  /-- The statement loop of `parseProg`: waiting for one statement. -/
  | progCollect (acc : List Stmt)

/-- Control state: which stretch of parser.ts code runs next. -/
inductive Ctl where
  /-- Entry of `parseExpr(minPrecedence)`. -/
  | exprStart (minPrec : Nat)
  /-- Entry of `parseStmt` (leading-token dispatch). -/
  | stmtStart
  /-- Entry of `Parser#parseBlock` (`useToken(Colon)`, `useToken(Indent)`). -/
  | blockStart
  /-- Loop head of `Parser#parseBlock` (Dedent check). -/
  | blockLoop (acc : List Stmt)
  /-- Loop head of `parseArrLit` (RightBracket check). -/
  | arrLoop (lb : Token) (acc : List Expr)
  /-- Loop head of the elif chain / optional else of `parseIfStmt`. -/
  | elifLoop (cond0 : Expr) (blk0 : Block) (acc : List ElifClause)
  /-- Return the value to the innermost frame. -/
  | retV (v : PVal)

/-- The whole parser state: token source state, control, and the explicit
call stack. -/
structure PM (σ : Type) where
  st : σ
  ctl : Ctl
  stack : List Frame

/-- Sequencing of a fallible parsing operation with the rest of the current
procedure (the implicit exception propagation of the TypeScript `throw`). -/
def eThen (A : Except PErr α) (k : α → Except PErr β) : Except PErr β :=
  match A with
  | .ok a => k a
  | .error e => .error e

/-- One step of the parser.  `.inl` is the next machine state, `.inr` a
finished parse (value plus final source state); `.error` carries the
failure exactly as parser.ts raises it.  A frame receiving a value of the
wrong kind cannot arise (expression frames only ever receive expressions,
&c.); those unreachable arms answer `.error .noFuel`. -/
def stepG (ts : TokSrc σ) (m : PM σ) : Except PErr (PM σ ⊕ (PVal × σ)) :=
  match m.ctl with
  | .exprStart minPrec =>
    -- parseExpr steps 1 and 2: require a prefix rule, apply it.
    match nudTable (ts.cur m.st).toSymbol with
    | none => .error (fatalErrorG ts m.st (ts.cur m.st) ("unexpected '" ++ (ts.cur m.st).toSymbol ++ "'"))
    | some rule =>
      match rule with
      | .identR =>
        eThen (useTokenG ts .Ident m.st) fun a =>
          .ok (.inl ⟨a.2, .retV (.expr (.ident a.1)), .ledLoop minPrec :: m.stack⟩)
      | .boolR =>
        eThen (useTokenG ts .Bool m.st) fun a =>
          .ok (.inl ⟨a.2, .retV (.expr (.boolLit a.1)), .ledLoop minPrec :: m.stack⟩)
      | .numR =>
        eThen (useTokenG ts .Num m.st) fun a =>
          .ok (.inl ⟨a.2, .retV (.expr (.numLit a.1)), .ledLoop minPrec :: m.stack⟩)
      | .strR =>
        eThen (useTokenG ts .Str m.st) fun a =>
          .ok (.inl ⟨a.2, .retV (.expr (.strLit a.1)), .ledLoop minPrec :: m.stack⟩)
      | .arrR =>
        -- parseArrLit: consume the left bracket, then the element loop.
        eThen (useTokenG ts .LeftBracket m.st) fun a =>
          .ok (.inl ⟨a.2, .arrLoop a.1 [], .ledLoop minPrec :: m.stack⟩)
      | .groupR =>
        -- parseExprGroup: consume the left paren, parse the inner expression.
        eThen (useTokenG ts .LeftParen m.st) fun a =>
          .ok (.inl ⟨a.2, .exprStart 0, .groupClose :: .ledLoop minPrec :: m.stack⟩)
      | .unaryR =>
        -- parseUnaryPrefixExpr: consume the operator, recurse at the unary level.
        eThen (useAnyTokenG ts m.st) fun a =>
          .ok (.inl ⟨a.2, .exprStart precUnary, .unaryRhs a.1 :: .ledLoop minPrec :: m.stack⟩)
  | .stmtStart =>
    -- parseStmt: dispatch on the leading token.
    match (ts.cur m.st).type with
    | .If =>
      eThen (useTokenG ts .If m.st) fun a =>
        .ok (.inl ⟨a.2, .exprStart 0, .ifAfterCond :: m.stack⟩)
    | .While =>
      eThen (useTokenG ts .While m.st) fun a =>
        .ok (.inl ⟨a.2, .exprStart 0, .whileAfterCond :: m.stack⟩)
    | _ => .ok (.inl ⟨m.st, .exprStart 0, .exprStmtEnd :: m.stack⟩)
  | .blockStart =>
    -- parseBlock prefix: `useToken(Colon)`, `useToken(Indent)`.
    eThen (useTokenG ts .Colon m.st) fun a =>
      eThen (useTokenG ts .Indent a.2) fun b =>
        .ok (.inl ⟨b.2, .blockLoop [], m.stack⟩)
  | .blockLoop acc =>
    -- parseBlock loop: stop at Dedent, else parse one expression statement.
    if (ts.cur m.st).type = .Dedent then
      eThen (useTokenG ts .Dedent m.st) fun a =>
        .ok (.inl ⟨a.2, .retV (.block (.mk acc)), m.stack⟩)
    else .ok (.inl ⟨m.st, .exprStart 0, .exprStmtEnd :: .blockCollect acc :: m.stack⟩)
  | .arrLoop lb acc =>
    -- parseArrLit loop: exit on a right bracket, else parse one element.
    if (ts.cur m.st).type = .RightBracket then
      eThen (useTokenG ts .RightBracket m.st) fun a =>
        .ok (.inl ⟨a.2, .retV (.expr (.arrLit lb acc a.1)), m.stack⟩)
    else .ok (.inl ⟨m.st, .exprStart 0, .arrCollect lb acc :: m.stack⟩)
  | .elifLoop cond0 blk0 acc =>
    -- parseIfStmt: the elif chain, then the optional else clause.
    if (ts.cur m.st).type = .Elif then
      eThen (useTokenG ts .Elif m.st) fun a =>
        .ok (.inl ⟨a.2, .exprStart 0, .elifCond cond0 blk0 acc :: m.stack⟩)
    else if (ts.cur m.st).type = .Else then
      eThen (useTokenG ts .Else m.st) fun a =>
        .ok (.inl ⟨a.2, .blockStart, .elseBlock cond0 blk0 acc :: m.stack⟩)
    else .ok (.inl ⟨m.st, .retV (.stmt (.ifStmt cond0 blk0 acc none)), m.stack⟩)
  | .retV v =>
    match m.stack with
    | [] => .ok (.inr (v, m.st))
    | fr :: rest =>
      match fr, v with
      | .ledLoop minPrec, .expr e =>
        -- parseExpr step 3: the infix loop.  The looked-up infix rule is
        -- invoked unconditionally; a missing rule is the dynamic type
        -- error of calling `undefined`.
        if currPrecedenceG ts m.st > minPrec then
          if ledHasRule (ts.cur m.st).toSymbol then
            -- parseBinaryInfixExpr: remember the operator's precedence,
            -- consume the operator, recurse at that same level.
            let precedence := currPrecedenceG ts m.st
            eThen (useAnyTokenG ts m.st) fun a =>
              .ok (.inl ⟨a.2, .exprStart precedence, .binRhs a.1 e :: .ledLoop minPrec :: rest⟩)
          else .error (.typeErr "infixParselet is not a function")
        else .ok (.inl ⟨m.st, .retV (.expr e), rest⟩)
      | .binRhs oper left, .expr r =>
        .ok (.inl ⟨m.st, .retV (.expr (.binaryExpr oper left r)), rest⟩)
      | .unaryRhs oper, .expr r =>
        .ok (.inl ⟨m.st, .retV (.expr (.unaryExpr oper r)), rest⟩)
      | .groupClose, .expr e =>
        -- parseExprGroup tail: `useToken(RightParen)`, no wrapper node.
        eThen (useTokenG ts .RightParen m.st) fun a =>
          .ok (.inl ⟨a.2, .retV (.expr e), rest⟩)
      | .arrCollect lb acc, .expr e =>
        -- parseArrLit after an element: a comma resumes the loop, anything
        -- else must close the literal.
        if (ts.cur m.st).type = .Comma then
          eThen (useTokenG ts .Comma m.st) fun a =>
            .ok (.inl ⟨a.2, .arrLoop lb (acc ++ [e]), rest⟩)
        else
          eThen (useTokenG ts .RightBracket m.st) fun a =>
            .ok (.inl ⟨a.2, .retV (.expr (.arrLit lb (acc ++ [e]) a.1)), rest⟩)
      | .exprStmtEnd, .expr e =>
        -- parseExprStmt tail: terminator checks, then consume it.
        eThen (expectExprTerminatorG ts m.st) fun _ =>
          eThen (expectStmtTerminatorG ts m.st) fun _ =>
            eThen (useAnyTokenG ts m.st) fun a =>
              .ok (.inl ⟨a.2, .retV (.stmt (.exprStmt e)), rest⟩)
      | .blockCollect acc, .stmt st =>
        .ok (.inl ⟨m.st, .blockLoop (acc ++ [st]), rest⟩)
      | .ifAfterCond, .expr cond =>
        .ok (.inl ⟨m.st, .blockStart, .ifAfterBlock cond :: rest⟩)
      | .ifAfterBlock cond, .block b =>
        .ok (.inl ⟨m.st, .elifLoop cond b [], rest⟩)
      | .elifCond cond0 blk0 acc, .expr ec =>
        .ok (.inl ⟨m.st, .blockStart, .elifBlock cond0 blk0 acc ec :: rest⟩)
      | .elifBlock cond0 blk0 acc ec, .block eb =>
        .ok (.inl ⟨m.st, .elifLoop cond0 blk0 (acc ++ [.mk ec eb]), rest⟩)
      | .elseBlock cond0 blk0 acc, .block eb =>
        .ok (.inl ⟨m.st, .retV (.stmt (.ifStmt cond0 blk0 acc (some eb))), rest⟩)
      | .whileAfterCond, .expr cond =>
        .ok (.inl ⟨m.st, .blockStart, .whileAfterBlock cond :: rest⟩)
      | .whileAfterBlock _, .block _ =>
        -- parseWhileStmt tail: `return new ast.WhileStmt(cond, clause)`.
        -- ast.ts exports no `WhileStmt` class, so the construction itself
        -- fails with a dynamic TypeError (see `Stmt.whileStmt`).
        .error (.typeErr "ast.WhileStmt is not a constructor")
      | .progCollect acc, .stmt st =>
        -- parseProg loop: stop once the current token is EOF.
        if (ts.cur m.st).type = .EOF then .ok (.inl ⟨m.st, .retV (.prog ⟨acc ++ [st]⟩), rest⟩)
        else .ok (.inl ⟨m.st, .stmtStart, .progCollect (acc ++ [st]) :: rest⟩)
      | _, _ => .error .noFuel

/-- Run the parser machine on fuel (each unit pays for one step; the step
count of a parse is linear in the token count, so the canonical fuel of
`parse` below suffices on every input analysed here). -/
def runG (ts : TokSrc σ) : Nat → PM σ → Except PErr (PVal × σ)
  | 0, _ => .error .noFuel
  | n + 1, m =>
    match stepG ts m with
    | .ok (.inl m') => runG ts n m'
    | .ok (.inr d) => .ok d
    | .error e => .error e

/-- parser.ts `new Parser(input)`: construct the scanner and pull the first
token. -/
def mkParserP (input : List Char) : Except PErr PState :=
  match nextToken (initLex input) with
  | .tok t s => .ok ⟨s, t⟩
  | .thrown m => .error (.thrownErr m)
  | .diverge => .error .noFuel

/-- Canonical fuel for a whole-program parse. -/
def progFuel (input : List Char) : Nat := 16 * input.length + 64

/-- End-to-end parse: `new Parser(input).parseProg()`. -/
def parse (input : List Char) : Except PErr Program :=
  match mkParserP input with
  | .error e => .error e
  | .ok p =>
    match runG realSrc (progFuel input) ⟨p, .stmtStart, [.progCollect []]⟩ with
    | .ok (.prog pr, _) => .ok pr
    | .ok _ => .error .noFuel
    | .error e => .error e

/-- A parse of a single expression (`new Parser(input).parseExpr(0)`, the
entry used by the expression-level fixtures). -/
def parseOneExpr (input : List Char) : Except PErr Expr :=
  match mkParserP input with
  | .error e => .error e
  | .ok p =>
    match runG realSrc (progFuel input) ⟨p, .exprStart 0, []⟩ with
    | .ok (.expr e, _) => .ok e
    | .ok _ => .error .noFuel
    | .error e => .error e

end MiniPy

namespace MiniPy

/-! ## preprocess.ts — the trailing-whitespace trim -/

/-- Loop of preprocess.ts `removeTrailingWhitespace`, which walks the input
from its last character to its first, skipping inline whitespace while the
`trailing` flag holds and otherwise prepending the character and resetting
the flag to whether the kept character was a line break.  Here the function
receives the **reversed** input and produces the reversed output. -/
def rtwGo : List Char → Bool → List Char
  | [], _ => []
  | c :: rest, trailing =>
    if trailing && isInlineWhitespace c then rtwGo rest trailing
    else c :: rtwGo rest (c == '\n')

/-- preprocess.ts `removeTrailingWhitespace` on a character list (the
`trailing` flag starts `true` so whitespace at the very end is dropped). -/
def removeTrailingWhitespace (l : List Char) : List Char :=
  (rtwGo l.reverse true).reverse

/-- Modelled from the spec: "space/tab/carriage-return characters
immediately preceding a line break, or trailing at end-of-input, are
deleted" — per line, drop the trailing inline whitespace. -/
def dropTrailingWs (line : List Char) : List Char :=
  (line.reverse.dropWhile isInlineWhitespace).reverse

/-- Rejoin lines with `'\n'` (inverse of `linesOf`). -/
def intercalateNL : List (List Char) → List Char
  | [] => []
  | [l] => l
  | l :: ls => l ++ '\n' :: intercalateNL ls

/-- Modelled from the spec: the line-wise description of the
trailing-whitespace trim — split into lines, drop each line's trailing
inline whitespace, rejoin. -/
def rtwSpec (l : List Char) : List Char :=
  intercalateNL ((linesOf l).map dropTrailingWs)

/-! ### C9 helper lemmas -/

theorem isInlineWhitespace_ne_nl {c : Char} (h : isInlineWhitespace c = true) : ¬c = '\n' := by
  intro he
  subst he
  simp [isInlineWhitespace, isLineBreak] at h

/-- The `trailing` flag after processing `m` with initial flag `b`. -/
def flagGo : List Char → Bool → Bool
  | [], b => b
  | c :: rest, _ => flagGo rest (c == '\n')

/-- The flag value `rtwGo` hands to whatever follows `m`. -/
def flagAfter (m : List Char) (b : Bool) : Bool := flagGo (rtwGo m b) b

theorem rtwGo_append (m l' : List Char) :
    ∀ b, rtwGo (m ++ l') b = rtwGo m b ++ rtwGo l' (flagAfter m b) := by
  induction m with
  | nil => intro b; simp [rtwGo, flagAfter, flagGo]
  | cons c rest ih =>
    intro b
    cases hb : b && isInlineWhitespace c with
    | true =>
      have hfa : flagAfter (c :: rest) b = flagAfter rest b := by
        simp [flagAfter, rtwGo, hb]
      simp only [List.cons_append, rtwGo, hb, if_true, hfa]
      exact ih b
    | false =>
      have hfa : flagAfter (c :: rest) b = flagAfter rest (c == '\n') := by
        simp [flagAfter, rtwGo, hb, flagGo]
      simp [rtwGo, hb, hfa, ih (c == '\n')]

theorem rtwGo_idem (m : List Char) : ∀ b, rtwGo (rtwGo m b) b = rtwGo m b := by
  induction m with
  | nil => intro b; simp [rtwGo]
  | cons c rest ih =>
    intro b
    cases hb : b && isInlineWhitespace c with
    | true =>
      simp only [rtwGo, hb, if_true]
      exact ih b
    | false =>
      simp [rtwGo, hb, ih (c == '\n')]

theorem rtwGo_count (m : List Char) : ∀ b, (rtwGo m b).count '\n' = m.count '\n' := by
  induction m with
  | nil => intro b; simp [rtwGo]
  | cons c rest ih =>
    intro b
    cases hb : b && isInlineWhitespace c with
    | true =>
      have hws : isInlineWhitespace c = true := (Bool.and_eq_true_iff.mp hb).2
      have hne : ¬c = '\n' := isInlineWhitespace_ne_nl hws
      simp only [rtwGo, hb, if_true]
      rw [ih b, List.count_cons]
      simp [hne]
    | false =>
      simp [rtwGo, hb, List.count_cons, ih (c == '\n')]

theorem rtwGo_false_no_nl (m : List Char) (h : '\n' ∉ m) : rtwGo m false = m := by
  induction m with
  | nil => simp [rtwGo]
  | cons c rest ih =>
    have hc : ¬c = '\n' := by intro he; exact h (by simp [he])
    simp [rtwGo, show (c == '\n') = false by simp [hc],
      ih (by intro hm; exact h (List.mem_cons_of_mem _ hm))]

theorem rtwGo_true_no_nl (m : List Char) (h : '\n' ∉ m) :
    rtwGo m true = m.dropWhile isInlineWhitespace := by
  induction m with
  | nil => simp [rtwGo]
  | cons c rest ih =>
    have hc : ¬c = '\n' := by intro he; exact h (by simp [he])
    have hrest : '\n' ∉ rest := by intro hm; exact h (List.mem_cons_of_mem _ hm)
    cases hws : isInlineWhitespace c with
    | true =>
      simp only [rtwGo, Bool.true_and, hws, if_true, List.dropWhile, ih hrest]
    | false =>
      simp only [rtwGo, Bool.true_and, hws, if_false, List.dropWhile]
      rw [show (c == '\n') = false by simp [hc]]
      simp [rtwGo_false_no_nl rest hrest]

theorem linesOf_ne_nil (l : List Char) : linesOf l ≠ [] := by
  cases l with
  | nil => simp [linesOf]
  | cons c rest =>
    simp only [linesOf]
    by_cases hc : (c == '\n') = true
    · simp [hc]
    · simp only [hc]
      cases linesOf rest <;> simp

theorem linesOf_no_nl (l : List Char) (h : '\n' ∉ l) : linesOf l = [l] := by
  induction l with
  | nil => simp [linesOf]
  | cons c rest ih =>
    have hc : ¬c = '\n' := by intro he; exact h (by simp [he])
    have hrest : '\n' ∉ rest := by intro hm; exact h (List.mem_cons_of_mem _ hm)
    simp only [linesOf, show (c == '\n') = false by simp [hc]]
    rw [ih hrest]
    simp

theorem linesOf_append_nl (line rest : List Char) (h : '\n' ∉ line) :
    linesOf (line ++ '\n' :: rest) = line :: linesOf rest := by
  induction line with
  | nil => simp [linesOf]
  | cons c tl ih =>
    have hc : ¬c = '\n' := by intro he; exact h (by simp [he])
    have htl : '\n' ∉ tl := by intro hm; exact h (List.mem_cons_of_mem _ hm)
    simp [linesOf, show (c == '\n') = false by simp [hc], ih htl]

theorem split_at_first_nl (l : List Char) (h : '\n' ∈ l) :
    ∃ line rest, l = line ++ '\n' :: rest ∧ '\n' ∉ line := by
  induction l with
  | nil => simp at h
  | cons c tl ih =>
    by_cases hc : c = '\n'
    · exact ⟨[], tl, by simp [hc], by simp⟩
    · have htl : '\n' ∈ tl := by
        rcases List.mem_cons.mp h with h1 | h2
        · exact absurd h1.symm hc
        · exact h2
      rcases ih htl with ⟨line, rest, heq, hnot⟩
      refine ⟨c :: line, rest, by simp [heq], ?_⟩
      intro hm
      rcases List.mem_cons.mp hm with h1 | h2
      · exact hc h1.symm
      · exact hnot h2

theorem rtw_eq_spec_aux : ∀ n l, l.length ≤ n → removeTrailingWhitespace l = rtwSpec l := by
  intro n
  induction n with
  | zero =>
    intro l hl
    have : l = [] := List.length_eq_zero.mp (Nat.le_zero.mp hl)
    subst this
    simp [removeTrailingWhitespace, rtwGo, rtwSpec, linesOf, intercalateNL, dropTrailingWs]
  | succ n ih =>
    intro l hl
    by_cases hmem : '\n' ∈ l
    · rcases split_at_first_nl l hmem with ⟨line, rest, heq, hnot⟩
      subst heq
      have hrevline : '\n' ∉ line.reverse := by simpa using hnot
      have hrev : (line ++ '\n' :: rest).reverse = rest.reverse ++ '\n' :: line.reverse := by
        simp
      have hrest_len : rest.length ≤ n := by
        have := hl
        simp [List.length_append] at this
        omega
      have step : removeTrailingWhitespace (line ++ '\n' :: rest) =
          dropTrailingWs line ++ '\n' :: removeTrailingWhitespace rest := by
        unfold removeTrailingWhitespace
        rw [hrev, rtwGo_append]
        have hnl : rtwGo ('\n' :: line.reverse) (flagAfter rest.reverse true) =
            '\n' :: (line.reverse.dropWhile isInlineWhitespace) := by
          simp only [rtwGo, isInlineWhitespace, isLineBreak]
          simp [rtwGo_true_no_nl line.reverse hrevline]
        rw [hnl]
        simp [dropTrailingWs]
      rw [step, ih rest hrest_len]
      unfold rtwSpec
      rw [linesOf_append_nl line rest hnot]
      have hne : (linesOf rest).map dropTrailingWs ≠ [] := by
        intro hcon
        exact linesOf_ne_nil rest (List.map_eq_nil_iff.mp hcon)
      simp only [List.map_cons]
      cases hmap : (linesOf rest).map dropTrailingWs with
      | nil => exact absurd hmap hne
      | cons x xs => simp [intercalateNL, hmap]
    · unfold rtwSpec
      rw [linesOf_no_nl l hmem]
      have : '\n' ∉ l.reverse := by simpa using hmem
      simp only [List.map_cons, List.map_nil, intercalateNL]
      unfold removeTrailingWhitespace
      rw [rtwGo_true_no_nl l.reverse this]
      simp [dropTrailingWs]

/-- **C9.** `removeTrailingWhitespace` is idempotent, preserves the number
of line-break characters exactly, and equals the line-wise specification
(delete only inline whitespace immediately preceding a line break or
trailing at end of input). -/
theorem c9_removeTrailingWhitespace (l : List Char) :
    removeTrailingWhitespace (removeTrailingWhitespace l) = removeTrailingWhitespace l ∧
    (removeTrailingWhitespace l).count '\n' = l.count '\n' ∧
    removeTrailingWhitespace l = rtwSpec l := by
  refine ⟨?_, ?_, rtw_eq_spec_aux l.length l (le_refl _)⟩
  · unfold removeTrailingWhitespace
    rw [List.reverse_reverse, rtwGo_idem]
  · unfold removeTrailingWhitespace
    rw [List.count_reverse, rtwGo_count, List.count_reverse]

end MiniPy




namespace MiniPy

/-- The scanner of `p` delivers the stream recorded in `q`. -/
inductive Sim : PState → PStateT → Prop where
  | fixp {lx : LexState} {c : Token} {inp : List Char} :
      lx.input = inp → nextToken lx = .tok c lx → Sim ⟨lx, c⟩ ⟨inp, c, []⟩
  | step {lx : LexState} {c t : Token} {rest : List Token} {lx' : LexState}
      {inp : List Char} :
      lx.input = inp → nextToken lx = .tok t lx' → Sim ⟨lx', t⟩ ⟨inp, t, rest⟩ →
      Sim ⟨lx, c⟩ ⟨inp, c, t :: rest⟩

theorem Sim.cur_eq {p : PState} {q : PStateT} (h : Sim p q) : q.curr = p.curr := by
  cases h <;> rfl

theorem Sim.input_eq {p : PState} {q : PStateT} (h : Sim p q) : q.input = p.lexer.input := by
  cases h with
  | fixp h1 _ => simp [h1]
  | step h1 _ _ => simp [h1]

theorem Sim.adv {p : PState} {q : PStateT} (h : Sim p q) :
    ∃ p' q', advanceP p = .ok p' ∧ feedAdv q = .ok q' ∧ Sim p' q' := by
  cases h with
  | fixp h1 h2 =>
    refine ⟨_, _, ?_, ?_, Sim.fixp h1 h2⟩
    · simp [advanceP, h2]
    · simp [feedAdv]
  | step h1 h2 h3 =>
    refine ⟨_, _, ?_, ?_, h3⟩
    · simp [advanceP, h2]
    · simp [feedAdv]

/-- Result relation for one `Except`-valued operation of the two sources. -/
def ERel (R : α → β → Prop) : Except PErr α → Except PErr β → Prop
  | .error e, .error e' => e = e'
  | .ok a, .ok b => R a b
  | _, _ => False

/-- Relation between the results of one step of the two machines. -/
def MRel : (PM PState ⊕ (PVal × PState)) → (PM PStateT ⊕ (PVal × PStateT)) → Prop
  | .inl m, .inl m' => m.ctl = m'.ctl ∧ m.stack = m'.stack ∧ Sim m.st m'.st
  | .inr d, .inr d' => d.1 = d'.1
  | _, _ => False

/-- Pair relation for token-consuming operations: same token, states still
in simulation. -/
def TRel (a : Token × PState) (b : Token × PStateT) : Prop :=
  a.1 = b.1 ∧ Sim a.2 b.2

/-- `eThen` transports a result relation through related continuations. -/
theorem eThen_simG {A : Except PErr α} {B : Except PErr β} {R : α → β → Prop}
    {k1 : α → Except PErr γ} {k2 : β → Except PErr δ} {S : γ → δ → Prop}
    (hAB : ERel R A B) (hk : ∀ a b, R a b → ERel S (k1 a) (k2 b)) :
    ERel S (eThen A k1) (eThen B k2) := by
  cases A <;> cases B
  · exact hAB
  · exact hAB.elim
  · exact hAB.elim
  · exact hk _ _ hAB

theorem ERel_refl_unit (A : Except PErr Unit) : ERel (fun _ _ => True) A A := by
  cases A
  · rfl
  · trivial

theorem useTokenG_sim {p : PState} {q : PStateT} (h : Sim p q) (ty : TokenType) :
    ERel TRel (useTokenG realSrc ty p) (useTokenG feedSrc ty q) := by
  have hc : q.curr = p.curr := h.cur_eq
  have hi : q.input = p.lexer.input := h.input_eq
  unfold useTokenG
  simp only [realSrc, feedSrc, hc]
  by_cases hty : p.curr.type = ty
  · rw [if_pos hty, if_pos hty]
    rcases h.adv with ⟨p', q', hp, hq, hsim⟩
    simp only [hp, hq]
    exact ⟨rfl, hsim⟩
  · rw [if_neg hty, if_neg hty]
    simp [ERel, fatalErrorG, hi]

theorem useAnyTokenG_sim {p : PState} {q : PStateT} (h : Sim p q) :
    ERel TRel (useAnyTokenG realSrc p) (useAnyTokenG feedSrc q) := by
  have hc : q.curr = p.curr := h.cur_eq
  unfold useAnyTokenG
  rcases h.adv with ⟨p', q', hp, hq, hsim⟩
  simp only [realSrc, feedSrc, hp, hq, hc]
  exact ⟨rfl, hsim⟩

theorem expectStmtTerminatorG_sim {p : PState} {q : PStateT} (h : Sim p q) :
    expectStmtTerminatorG feedSrc q = expectStmtTerminatorG realSrc p := by
  unfold expectStmtTerminatorG isStmtTerminatorG fatalErrorG
  simp only [realSrc, feedSrc, h.cur_eq, h.input_eq]

theorem expectExprTerminatorG_sim {p : PState} {q : PStateT} (h : Sim p q) :
    expectExprTerminatorG feedSrc q = expectExprTerminatorG realSrc p := by
  unfold expectExprTerminatorG isStmtTerminatorG fatalErrorG
  simp only [realSrc, feedSrc, h.cur_eq, h.input_eq]

theorem currPrecedenceG_sim {p : PState} {q : PStateT} (h : Sim p q) :
    currPrecedenceG feedSrc q = currPrecedenceG realSrc p := by
  unfold currPrecedenceG
  simp only [realSrc, feedSrc, h.cur_eq]

theorem stepG_sim {p : PState} {q : PStateT} (h : Sim p q) (ctl : Ctl) (stack : List Frame) :
    ERel MRel (stepG realSrc ⟨p, ctl, stack⟩) (stepG feedSrc ⟨q, ctl, stack⟩) := by
  have hc : feedSrc.cur q = realSrc.cur p := h.cur_eq
  have hi : feedSrc.src q = realSrc.src p := h.input_eq
  cases ctl with
  | exprStart minPrec =>
    simp only [stepG]
    rw [hc]
    cases hn : nudTable (realSrc.cur p).toSymbol with
    | none => simp [ERel, fatalErrorG, hi]
    | some rule =>
      cases rule <;>
        first
        | exact eThen_simG (useTokenG_sim h _) fun a b hr => ⟨by simp [hr.1], by simp [hr.1], hr.2⟩
        | exact eThen_simG (useAnyTokenG_sim h) fun a b hr => ⟨by simp [hr.1], by simp [hr.1], hr.2⟩
  | stmtStart =>
    simp only [stepG]
    rw [hc]
    cases hty : (realSrc.cur p).type <;>
      first
      | exact ⟨rfl, rfl, h⟩
      | exact eThen_simG (useTokenG_sim h _) fun a b hr => ⟨by simp [hr.1], by simp [hr.1], hr.2⟩
  | blockStart =>
    simp only [stepG]
    refine eThen_simG (useTokenG_sim h .Colon) fun a b hr => ?_
    exact eThen_simG (useTokenG_sim hr.2 .Indent) fun a2 b2 hr2 => ⟨rfl, rfl, hr2.2⟩
  | blockLoop acc =>
    simp only [stepG]
    rw [hc]
    by_cases hd : (realSrc.cur p).type = .Dedent
    · simp only [if_pos hd]
      exact eThen_simG (useTokenG_sim h .Dedent) fun a b hr => ⟨rfl, rfl, hr.2⟩
    · simp only [if_neg hd]
      exact ⟨rfl, rfl, h⟩
  | arrLoop lb acc =>
    simp only [stepG]
    rw [hc]
    by_cases hd : (realSrc.cur p).type = .RightBracket
    · simp only [if_pos hd]
      exact eThen_simG (useTokenG_sim h .RightBracket) fun a b hr => ⟨by simp [hr.1], rfl, hr.2⟩
    · simp only [if_neg hd]
      exact ⟨rfl, rfl, h⟩
  | elifLoop cond0 blk0 acc =>
    simp only [stepG]
    rw [hc]
    by_cases hd : (realSrc.cur p).type = .Elif
    · simp only [if_pos hd]
      exact eThen_simG (useTokenG_sim h .Elif) fun a b hr => ⟨rfl, rfl, hr.2⟩
    · simp only [if_neg hd]
      by_cases hd2 : (realSrc.cur p).type = .Else
      · simp only [if_pos hd2]
        exact eThen_simG (useTokenG_sim h .Else) fun a b hr => ⟨rfl, rfl, hr.2⟩
      · simp only [if_neg hd2]
        exact ⟨rfl, rfl, h⟩
  | retV v =>
    cases stack with
    | nil => exact rfl
    | cons fr rest =>
      cases fr with
      | ledLoop minPrec =>
        cases v <;> try exact rfl
        case expr e =>
          simp only [stepG]
          rw [currPrecedenceG_sim h, hc]
          by_cases h1 : currPrecedenceG realSrc p > minPrec
          · simp only [if_pos h1]
            by_cases h2 : ledHasRule (realSrc.cur p).toSymbol = true
            · simp only [if_pos h2]
              exact eThen_simG (useAnyTokenG_sim h) fun a b hr => ⟨rfl, by simp [hr.1], hr.2⟩
            · simp only [if_neg h2]
              exact rfl
          · simp only [if_neg h1]
            exact ⟨rfl, rfl, h⟩
      | binRhs oper left => cases v <;> first | exact rfl | exact ⟨rfl, rfl, h⟩
      | unaryRhs oper => cases v <;> first | exact rfl | exact ⟨rfl, rfl, h⟩
      | groupClose =>
        cases v <;> try exact rfl
        case expr e =>
          exact eThen_simG (useTokenG_sim h .RightParen) fun a b hr => ⟨rfl, rfl, hr.2⟩
      | arrCollect lb acc =>
        cases v <;> try exact rfl
        case expr e =>
          simp only [stepG]
          rw [hc]
          by_cases hd : (realSrc.cur p).type = .Comma
          · simp only [if_pos hd]
            exact eThen_simG (useTokenG_sim h .Comma) fun a b hr => ⟨rfl, rfl, hr.2⟩
          · simp only [if_neg hd]
            exact eThen_simG (useTokenG_sim h .RightBracket) fun a b hr =>
              ⟨by simp [hr.1], rfl, hr.2⟩
      | exprStmtEnd =>
        cases v <;> try exact rfl
        case expr e =>
          simp only [stepG]
          rw [expectExprTerminatorG_sim h, expectStmtTerminatorG_sim h]
          refine eThen_simG (ERel_refl_unit _) fun _ _ _ => ?_
          refine eThen_simG (ERel_refl_unit _) fun _ _ _ => ?_
          exact eThen_simG (useAnyTokenG_sim h) fun a b hr => ⟨rfl, rfl, hr.2⟩
      | blockCollect acc => cases v <;> first | exact rfl | exact ⟨rfl, rfl, h⟩
      | ifAfterCond => cases v <;> first | exact rfl | exact ⟨rfl, rfl, h⟩
      | ifAfterBlock cond => cases v <;> first | exact rfl | exact ⟨rfl, rfl, h⟩
      | elifCond c0 b0 acc => cases v <;> first | exact rfl | exact ⟨rfl, rfl, h⟩
      | elifBlock c0 b0 acc ec => cases v <;> first | exact rfl | exact ⟨rfl, rfl, h⟩
      | elseBlock c0 b0 acc => cases v <;> first | exact rfl | exact ⟨rfl, rfl, h⟩
      | whileAfterCond => cases v <;> first | exact rfl | exact ⟨rfl, rfl, h⟩
      | whileAfterBlock cond => cases v <;> exact rfl
      | progCollect acc =>
        cases v <;> try exact rfl
        case stmt st =>
          simp only [stepG]
          rw [hc]
          by_cases hd : (realSrc.cur p).type = .EOF
          · simp only [if_pos hd]
            exact ⟨rfl, rfl, h⟩
          · simp only [if_neg hd]
            exact ⟨rfl, rfl, h⟩

/-- Whole-run simulation: under `Sim`, a run against the real scanner and a
run against the recorded stream produce the same verdict (same error, or
same value). -/
theorem runG_sim : ∀ (n : Nat) {p : PState} {q : PStateT}, Sim p q → ∀ (ctl : Ctl)
    (stack : List Frame),
    ERel (fun d d' => d.1 = d'.1) (runG realSrc n ⟨p, ctl, stack⟩)
      (runG feedSrc n ⟨q, ctl, stack⟩)
  | 0, p, q, _, ctl, stack => rfl
  | n + 1, p, q, h, ctl, stack => by
    have hs := stepG_sim h ctl stack
    simp only [runG]
    revert hs
    cases hA : stepG realSrc ⟨p, ctl, stack⟩ with
    | error e =>
      cases hB : stepG feedSrc ⟨q, ctl, stack⟩ with
      | error e2 => exact fun hs => hs
      | ok b => exact fun hs => hs.elim
    | ok a =>
      cases hB : stepG feedSrc ⟨q, ctl, stack⟩ with
      | error e2 => exact fun hs => hs.elim
      | ok b =>
        intro hs
        cases a with
        | inl m =>
          cases b with
          | inl m2 =>
            obtain ⟨h1, h2, h3⟩ := hs
            obtain ⟨st1, c1, k1⟩ := m
            obtain ⟨st2, c2, k2⟩ := m2
            cases h1
            cases h2
            exact runG_sim n h3 c1 k1
          | inr d2 => exact hs.elim
        | inr d =>
          cases b with
          | inl m2 => exact hs.elim
          | inr d2 => exact hs

/-- The run of `parse` against a recorded token stream. -/
def feedParse (input : List Char) (c : Token) (rest : List Token) : Except PErr Program :=
  match runG feedSrc (progFuel input) ⟨⟨input, c, rest⟩, .stmtStart, [.progCollect []]⟩ with
  | .ok (.prog pr, _) => .ok pr
  | .ok _ => .error .noFuel
  | .error e => .error e

/-- The run of `parseOneExpr` against a recorded token stream. -/
def feedParseOneExpr (input : List Char) (c : Token) (rest : List Token) : Except PErr Expr :=
  match runG feedSrc (progFuel input) ⟨⟨input, c, rest⟩, .exprStart 0, []⟩ with
  | .ok (.expr e, _) => .ok e
  | .ok _ => .error .noFuel
  | .error e => .error e

/-- A whole-program parse may be computed against a recorded token stream:
if the parser construction succeeds and the scanner delivers the recorded
stream, `parse` equals `feedParse`. -/
theorem parse_via_feed {input : List Char} {p0 : PState} {rest : List Token}
    (hmk : mkParserP input = .ok p0) (hsim : Sim p0 ⟨input, p0.curr, rest⟩) :
    parse input = feedParse input p0.curr rest := by
  simp only [parse, feedParse, hmk]
  have hr := runG_sim (progFuel input) hsim .stmtStart [.progCollect []]
  revert hr
  cases hA : runG realSrc (progFuel input) ⟨p0, .stmtStart, [.progCollect []]⟩ with
  | error e =>
    cases hB : runG feedSrc (progFuel input)
        ⟨⟨input, p0.curr, rest⟩, .stmtStart, [.progCollect []]⟩ with
    | error e2 => intro hr; rw [show e = e2 from hr]
    | ok b => exact fun hr => hr.elim
  | ok a =>
    cases hB : runG feedSrc (progFuel input)
        ⟨⟨input, p0.curr, rest⟩, .stmtStart, [.progCollect []]⟩ with
    | error e2 => exact fun hr => hr.elim
    | ok b =>
      intro hr
      obtain ⟨v1, s1⟩ := a
      obtain ⟨v2, s2⟩ := b
      cases show v1 = v2 from hr
      cases v1 <;> rfl

/-- Same, for a single-expression parse. -/
theorem parseOneExpr_via_feed {input : List Char} {p0 : PState} {rest : List Token}
    (hmk : mkParserP input = .ok p0) (hsim : Sim p0 ⟨input, p0.curr, rest⟩) :
    parseOneExpr input = feedParseOneExpr input p0.curr rest := by
  simp only [parseOneExpr, feedParseOneExpr, hmk]
  have hr := runG_sim (progFuel input) hsim (.exprStart 0) []
  revert hr
  cases hA : runG realSrc (progFuel input) ⟨p0, .exprStart 0, []⟩ with
  | error e =>
    cases hB : runG feedSrc (progFuel input)
        ⟨⟨input, p0.curr, rest⟩, .exprStart 0, []⟩ with
    | error e2 => intro hr; rw [show e = e2 from hr]
    | ok b => exact fun hr => hr.elim
  | ok a =>
    cases hB : runG feedSrc (progFuel input)
        ⟨⟨input, p0.curr, rest⟩, .exprStart 0, []⟩ with
    | error e2 => exact fun hr => hr.elim
    | ok b =>
      intro hr
      obtain ⟨v1, s1⟩ := a
      obtain ⟨v2, s2⟩ := b
      cases show v1 = v2 from hr
      cases v1 <;> rfl

/-! ## Recording a scanner's token stream

`chainOK c n s` checks, by running the scanner, that `n` pulls from state
`s` all succeed and land on a fixpoint whose token matches the lookahead at
that point; `chainToks n s` is the list of tokens those pulls deliver.
Together they build `Sim` for any concrete input by evaluation. -/

/-- The tokens delivered by `n` scanner pulls (scanner analogue of calling
`nextToken` `n` times). -/
def chainToks : Nat → LexState → List Token
  | 0, _ => []
  | n + 1, s =>
    match nextToken s with
    | .tok t s' => t :: chainToks n s'
    | _ => []

/-- All `n` pulls succeed, never change the source text, and end on a
scanner fixpoint (EOF or sticky error). -/
def chainOK (c : Token) : Nat → LexState → Bool
  | 0, s =>
    match nextToken s with
    | .tok t s' => decide (t = c) && decide (s' = s)
    | _ => false
  | n + 1, s =>
    match nextToken s with
    | .tok t s' => decide (s'.input = s.input) && chainOK t n s'
    | _ => false

theorem sim_of_chain : ∀ (n : Nat) (s : LexState) (c : Token),
    chainOK c n s = true → Sim ⟨s, c⟩ ⟨s.input, c, chainToks n s⟩
  | 0, s, c, h => by
    unfold chainOK at h
    cases hn : nextToken s with
    | tok t s' =>
      rw [hn] at h
      rw [Bool.and_eq_true, decide_eq_true_iff, decide_eq_true_iff] at h
      obtain ⟨ht, hs⟩ := h
      subst ht; subst hs
      exact Sim.fixp rfl hn
    | thrown m => rw [hn] at h; exact absurd h (by simp)
    | diverge => rw [hn] at h; exact absurd h (by simp)
  | n + 1, s, c, h => by
    unfold chainOK at h
    cases hn : nextToken s with
    | tok t s' =>
      rw [hn] at h
      rw [Bool.and_eq_true, decide_eq_true_iff] at h
      obtain ⟨hi, hrec⟩ := h
      have hs := sim_of_chain n s' t hrec
      rw [hi] at hs
      have : chainToks (n + 1) s = t :: chainToks n s' := by
        simp [chainToks, hn]
      rw [this]
      exact Sim.step rfl hn hs
    | thrown m => rw [hn] at h; exact absurd h (by simp)
    | diverge => rw [hn] at h; exact absurd h (by simp)

/-- The recorded stream of a whole input: lookahead of the freshly built
parser, then `n` recorded pulls. -/
def streamCurr (input : List Char) : Token :=
  match mkParserP input with
  | .ok p0 => p0.curr
  | .error _ => ⟨.EOF, "", 0⟩

/-- The tokens the scanner will feed the parser after construction. -/
def streamToks (input : List Char) (n : Nat) : List Token :=
  match mkParserP input with
  | .ok p0 => chainToks n p0.lexer
  | .error _ => []

/-- Parser construction succeeds and `n` further pulls reach a fixpoint. -/
def streamOK (input : List Char) (n : Nat) : Bool :=
  match mkParserP input with
  | .ok p0 => decide (p0.lexer.input = input) && chainOK p0.curr n p0.lexer
  | .error _ => false

theorem parse_by_feed (input : List Char) (n : Nat) (h : streamOK input n = true) :
    parse input = feedParse input (streamCurr input) (streamToks input n) := by
  unfold streamOK at h
  cases hmk : mkParserP input with
  | error e => rw [hmk] at h; exact absurd h (by simp)
  | ok p0 =>
    rw [hmk] at h
    rw [Bool.and_eq_true, decide_eq_true_iff] at h
    obtain ⟨hinp, hchain⟩ := h
    have hsim := sim_of_chain n p0.lexer p0.curr hchain
    rw [hinp] at hsim
    have hres := parse_via_feed hmk hsim
    rw [hres]
    unfold streamCurr streamToks
    rw [hmk]

theorem parseOneExpr_by_feed (input : List Char) (n : Nat) (h : streamOK input n = true) :
    parseOneExpr input = feedParseOneExpr input (streamCurr input) (streamToks input n) := by
  unfold streamOK at h
  cases hmk : mkParserP input with
  | error e => rw [hmk] at h; exact absurd h (by simp)
  | ok p0 =>
    rw [hmk] at h
    rw [Bool.and_eq_true, decide_eq_true_iff] at h
    obtain ⟨hinp, hchain⟩ := h
    have hsim := sim_of_chain n p0.lexer p0.curr hchain
    rw [hinp] at hsim
    have hres := parseOneExpr_via_feed hmk hsim
    rw [hres]
    unfold streamCurr streamToks
    rw [hmk]

end MiniPy


namespace MiniPy

/-! ## Scanner stream invariants

Shared infrastructure for the indentation-balance and sticky-error
properties of `nextToken`: every state function only appends to the token
buffer, and what it appends is classified below. -/

/-- Indent/Dedent balance of a token list. -/
def bal (l : List Token) : Int :=
  (l.countP (fun t => t.type == .Indent) : Int) - (l.countP (fun t => t.type == .Dedent) : Int)

/-- No error tokens. -/
def noErrB (l : List Token) : Bool := l.all (fun t => !(t.type == .Error))

/-- Contains an EOF token. -/
def hasEOFB (l : List Token) : Bool := l.any (fun t => t.type == .EOF)

/-- Only EOF tokens. -/
def allEOFB (l : List Token) : Bool := l.all (fun t => t.type == .EOF)

/-- After the first EOF token, only EOF tokens follow. -/
def postEOFok : List Token → Bool
  | [] => true
  | t :: rest => if t.type == .EOF then allEOFB rest else postEOFok rest

/-- Strictly ascending above a strict lower bound. -/
def ascB : Nat → List Nat → Bool
  | _, [] => true
  | p, x :: xs => decide (p < x) && ascB x xs

/-- A well-formed indentation stack: bottom sentinel 0, strictly ascending. -/
def goodStackB : List Nat → Bool
  | 0 :: xs => ascB 0 xs
  | _ => false

/-- The number of pushed indentation levels minus the pending buffer
balance; delivered Indents minus Dedents always equals the drop in `Q`. -/
def Q (s : LexState) : Int := (s.indentStack.length : Int) - 1 - bal s.buffer

/-- The state invariant maintained by `nextToken`: the stack is well
formed; outside the stuck state the buffer holds no error token; and once
an EOF token is pending the scanner is in the EOF state with a fully
unwound stack and only EOF tokens after the first one. -/
def lexInvP (s : LexState) : Prop :=
  goodStackB s.indentStack = true ∧
  (s.mode ≠ .stuck → noErrB s.buffer = true) ∧
  (hasEOFB s.buffer = true → s.mode = .eof ∧ s.indentStack = [0] ∧ postEOFok s.buffer = true)

instance (s : LexState) : Decidable (lexInvP s) := by
  unfold lexInvP; infer_instance

/-! ### List bookkeeping lemmas -/

theorem bal_append (l1 l2 : List Token) : bal (l1 ++ l2) = bal l1 + bal l2 := by
  simp [bal, List.countP_append]; ring

theorem bal_cons (t : Token) (l : List Token) : bal (t :: l) = bal [t] + bal l := by
  simpa using bal_append [t] l

theorem bal_single_of_other {t : Token} (h1 : t.type ≠ .Indent) (h2 : t.type ≠ .Dedent) :
    bal [t] = 0 := by
  simp [bal, List.countP_cons, beq_iff_eq, h1, h2]

theorem bal_nil : bal [] = 0 := by simp [bal]

theorem bal_of_no_indent {l : List Token}
    (h : ∀ t ∈ l, t.type ≠ .Indent ∧ t.type ≠ .Dedent) : bal l = 0 := by
  induction l with
  | nil => exact bal_nil
  | cons t rest ih =>
    rw [bal_cons, bal_single_of_other (h t (by simp)).1 (h t (by simp)).2,
      ih (fun u hu => h u (by simp [hu]))]
    simp

theorem bal_allEOF {l : List Token} (h : allEOFB l = true) : bal l = 0 := by
  refine bal_of_no_indent fun t ht => ?_
  rw [allEOFB, List.all_eq_true] at h
  have h2 := h t ht
  rw [beq_iff_eq] at h2
  refine ⟨?_, ?_⟩ <;> rw [h2] <;> decide

theorem noErrB_append {l1 l2 : List Token} (h1 : noErrB l1 = true) (h2 : noErrB l2 = true) :
    noErrB (l1 ++ l2) = true := by
  rw [noErrB, List.all_append]; rw [noErrB] at h1 h2; rw [h1, h2]; rfl

theorem noErrB_tail {t : Token} {l : List Token} (h : noErrB (t :: l) = true) :
    noErrB l = true := by
  rw [noErrB, List.all_cons, Bool.and_eq_true] at h; exact h.2

theorem noErrB_head {t : Token} {l : List Token} (h : noErrB (t :: l) = true) :
    t.type ≠ .Error := by
  rw [noErrB, List.all_cons, Bool.and_eq_true] at h
  have h2 := h.1
  rw [Bool.not_eq_true', beq_eq_false_iff_ne] at h2
  exact h2

theorem hasEOFB_append_left {l1 l2 : List Token} (h : hasEOFB l1 = true) :
    hasEOFB (l1 ++ l2) = true := by
  rw [hasEOFB, List.any_append]; rw [hasEOFB] at h; rw [h]; rfl

theorem hasEOFB_append_cases {l1 l2 : List Token} (h : hasEOFB (l1 ++ l2) = true) :
    hasEOFB l1 = true ∨ hasEOFB l2 = true := by
  rw [hasEOFB, List.any_append, Bool.or_eq_true] at h; exact h

theorem hasEOFB_tail_cases {t : Token} {l : List Token} (h : hasEOFB (t :: l) = true) :
    t.type = .EOF ∨ hasEOFB l = true := by
  rw [hasEOFB, List.any_cons, Bool.or_eq_true] at h
  rcases h with h | h
  · exact .inl (by rwa [beq_iff_eq] at h)
  · exact .inr h

theorem hasEOFB_cons_of_tail {t : Token} {l : List Token} (h : hasEOFB l = true) :
    hasEOFB (t :: l) = true := by
  rw [hasEOFB, List.any_cons, Bool.or_eq_true]; exact .inr h

theorem allEOFB_tail {t : Token} {l : List Token} (h : allEOFB (t :: l) = true) :
    allEOFB l = true := by
  rw [allEOFB, List.all_cons, Bool.and_eq_true] at h; exact h.2

theorem postEOFok_tail {t : Token} {l : List Token} (h : postEOFok (t :: l) = true) :
    postEOFok l = true := by
  rw [postEOFok] at h
  by_cases ht : t.type = .EOF
  · rw [if_pos (by rw [beq_iff_eq]; exact ht)] at h
    clear ht
    induction l with
    | nil => rfl
    | cons u rest ih =>
      rw [allEOFB, List.all_cons, Bool.and_eq_true] at h
      rw [postEOFok, if_pos h.1]
      exact h.2
  · rwa [if_neg (by rw [beq_iff_eq]; exact ht)] at h

theorem postEOFok_front_eof {t : Token} {l : List Token} (h : postEOFok (t :: l) = true)
    (ht : t.type = .EOF) : allEOFB l = true := by
  rw [postEOFok, if_pos (by rw [beq_iff_eq]; exact ht)] at h; exact h

theorem postEOFok_append_eof {l : List Token} {e : Token} (he : e.type = .EOF)
    (h : postEOFok l = true) : postEOFok (l ++ [e]) = true := by
  induction l with
  | nil => simp [postEOFok, allEOFB, he]
  | cons t rest ih =>
    rw [postEOFok] at h
    by_cases ht : t.type = .EOF
    · rw [if_pos (by rw [beq_iff_eq]; exact ht)] at h
      rw [List.cons_append, postEOFok, if_pos (by rw [beq_iff_eq]; exact ht)]
      rw [allEOFB, List.all_append, Bool.and_eq_true]
      exact ⟨h, by simp [allEOFB, beq_iff_eq, he]⟩
    · rw [if_neg (by rw [beq_iff_eq]; exact ht)] at h
      rw [List.cons_append, postEOFok, if_neg (by rw [beq_iff_eq]; exact ht)]
      exact ih h

theorem postEOFok_of_no_eof {l : List Token} (h : hasEOFB l = false) :
    postEOFok l = true := by
  induction l with
  | nil => rfl
  | cons t rest ih =>
    rw [hasEOFB, List.any_cons, Bool.or_eq_false_iff] at h
    rw [postEOFok, if_neg (by rw [h.1]; intro hc; cases hc)]
    exact ih h.2

theorem allEOFB_hasEOFB_false {l : List Token} (h : ∀ t ∈ l, t.type ≠ .EOF) :
    hasEOFB l = false := by
  rw [hasEOFB]
  rw [List.any_eq_false]
  intro t ht
  rw [Bool.not_eq_true, beq_eq_false_iff_ne]
  exact h t ht

/-! ### Indentation stack lemmas -/

theorem ascB_dropLast : ∀ (p : Nat) (xs : List Nat), ascB p xs = true →
    ascB p xs.dropLast = true
  | _, [], _ => rfl
  | p, [x], _ => rfl
  | p, x :: y :: xs, h => by
    rw [ascB, Bool.and_eq_true] at h
    rw [List.dropLast_cons₂, ascB, Bool.and_eq_true]
    exact ⟨h.1, ascB_dropLast x (y :: xs) h.2⟩

theorem ascB_getLast : ∀ (p : Nat) (xs : List Nat), ascB p xs = true →
    ∀ q, xs.getLast? = some q → p < q
  | p, [], _, q, hq => by cases hq
  | p, [x], h, q, hq => by
    rw [ascB, Bool.and_eq_true, decide_eq_true_iff] at h
    cases hq
    exact h.1
  | p, x :: y :: xs, h, q, hq => by
    rw [ascB, Bool.and_eq_true, decide_eq_true_iff] at h
    rw [List.getLast?_cons_cons] at hq
    exact h.1.trans (ascB_getLast x (y :: xs) h.2 q hq)

theorem ascB_snoc : ∀ (p : Nat) (xs : List Nat) (y : Nat), ascB p xs = true →
    (∀ q, xs.getLast? = some q → q < y) → (xs = [] → p < y) →
    ascB p (xs ++ [y]) = true
  | p, [], y, _, _, he => by
    rw [List.nil_append, ascB, ascB, Bool.and_eq_true, decide_eq_true_iff]
    exact ⟨he rfl, rfl⟩
  | p, x :: xs, y, h, hl, _ => by
    rw [ascB, Bool.and_eq_true] at h
    rw [List.cons_append, ascB, Bool.and_eq_true]
    refine ⟨h.1, ascB_snoc x xs y h.2 ?_ ?_⟩
    · intro q hq
      exact hl q (by rw [List.getLast?_cons, hq]; rfl)
    · intro hxs
      subst hxs
      exact hl x rfl

theorem goodStack_shape {l : List Nat} (h : goodStackB l = true) :
    ∃ xs, l = 0 :: xs ∧ ascB 0 xs = true := by
  match l, h with
  | 0 :: xs, h => exact ⟨xs, rfl, h⟩

theorem goodStack_getLast_pos {l : List Nat} (h : goodStackB l = true)
    {q : Nat} (hq : l.getLast? = some q) (hne : q ≠ 0) :
    ∃ xs, xs ≠ [] ∧ l = 0 :: xs ∧ 0 < q := by
  obtain ⟨xs, rfl, ha⟩ := goodStack_shape h
  cases xs with
  | nil =>
    cases hq
    exact absurd rfl hne
  | cons x ys =>
    refine ⟨x :: ys, by simp, rfl, ?_⟩
    rw [List.getLast?_cons, List.getLast?_cons] at hq
    exact ascB_getLast 0 (x :: ys) ha q (by simpa [List.getLast?_cons] using hq)

theorem goodStack_dropLast {xs : List Nat} (hx : xs ≠ [])
    (h : goodStackB (0 :: xs) = true) :
    goodStackB (0 :: xs).dropLast = true ∧ (0 :: xs).dropLast.length + 1 = (0 :: xs).length := by
  have ha : ascB 0 xs = true := h
  cases xs with
  | nil => exact absurd rfl hx
  | cons x ys =>
    constructor
    · rw [List.dropLast_cons₂, goodStackB]
      exact ascB_dropLast 0 (x :: ys) ha
    · rw [List.dropLast_cons₂]
      simp [List.length_dropLast, List.length_cons]

theorem goodStack_dropLast2 {l : List Nat} {xs : List Nat} (hx : xs ≠ [])
    (hl : l = 0 :: xs) (h : goodStackB l = true) :
    goodStackB l.dropLast = true ∧ l.dropLast.length + 1 = l.length := by
  subst hl
  exact goodStack_dropLast hx h

/-! ### `clearIndentTo` -/

theorem clearGo_spec (d : Nat) : ∀ (k : Nat) (s : LexState),
    goodStackB s.indentStack = true →
    ∃ Δ, (clearIndentToGo d k s).buffer = s.buffer ++ Δ ∧
      (∀ t ∈ Δ, t.type = .Dedent) ∧
      ((clearIndentToGo d k s).indentStack.length + Δ.length = s.indentStack.length) ∧
      goodStackB (clearIndentToGo d k s).indentStack = true ∧
      (clearIndentToGo d k s).input = s.input
  | 0, s, hg => ⟨[], by simp [clearIndentToGo], by simp, by simp [clearIndentToGo], by
      simpa [clearIndentToGo] using hg, by simp [clearIndentToGo]⟩
  | k + 1, s, hg => by
    rw [clearIndentToGo]
    split
    next hq => exact ⟨[], by simp, by simp, by simp, hg, rfl⟩
    next top hq =>
      split
      next hd =>
        have htop : top ≠ 0 := by omega
        obtain ⟨xs, hxne, hshape, _⟩ := goodStack_getLast_pos hg hq htop
        have hdrop := goodStack_dropLast2 hxne hshape hg
        have hg2 : goodStackB
            ({ s.emitTok .Dedent with indentStack := s.indentStack.dropLast } :
              LexState).indentStack = true := hdrop.1
        obtain ⟨Δ, hbuf, hded, hlen, hg3, hinp⟩ := clearGo_spec d k _ hg2
        refine ⟨⟨.Dedent, s.currentSlice, s.start⟩ :: Δ, ?_, ?_, ?_, hg3, ?_⟩
        · rw [hbuf]
          show s.buffer ++ [⟨.Dedent, s.currentSlice, s.start⟩] ++ Δ = _
          simp
        · intro t ht
          rcases List.mem_cons.mp ht with h | h
          · rw [h]
          · exact hded t h
        · rw [List.length_cons]
          have h2 : ({ s.emitTok .Dedent with
              indentStack := s.indentStack.dropLast } : LexState).indentStack.length + 1
              = s.indentStack.length := hdrop.2
          omega
        · rw [hinp]; rfl
      next hd =>
        exact ⟨[], by simp, by simp, by simp, hg, rfl⟩

theorem clearGo_zero : ∀ (k : Nat) (s : LexState),
    goodStackB s.indentStack = true → s.indentStack.length ≤ k + 1 →
    (clearIndentToGo 0 k s).indentStack = [0]
  | 0, s, hg, hk => by
    obtain ⟨xs, hshape, _⟩ := goodStack_shape hg
    rw [clearIndentToGo]
    cases xs with
    | nil => rw [hshape]
    | cons x ys => rw [hshape] at hk; simp [List.length_cons] at hk
  | k + 1, s, hg, hk => by
    rw [clearIndentToGo]
    obtain ⟨xs, hshape, ha⟩ := goodStack_shape hg
    split
    next hq => rw [hshape] at hq; simp [List.getLast?_cons] at hq
    next top hq =>
      split
      next hd =>
        obtain ⟨xs2, hxne, hshape2, _⟩ := goodStack_getLast_pos hg hq (by omega)
        have hdrop := goodStack_dropLast2 hxne hshape2 hg
        refine clearGo_zero k _ hdrop.1 ?_
        show (s.indentStack.dropLast).length ≤ k + 1
        have h2 := hdrop.2
        omega
      next hd =>
        have htop : top = 0 := by omega
        subst htop
        cases xs with
        | nil => rw [hshape]
        | cons x ys =>
          exfalso
          have h3 := ascB_getLast 0 (x :: ys) ha 0 (by
            rw [hshape] at hq
            rwa [List.getLast?_cons_cons] at hq)
          omega

theorem clearF_zero (s : LexState) (hg : goodStackB s.indentStack = true) :
    (clearIndentToF 0 s).indentStack = [0] :=
  clearGo_zero s.indentStack.length s hg (by omega)

/-! ### Cursor-only operations: buffer and stack untouched -/

/-- The operation moved only the cursor: buffer and stack are untouched. -/
def cursorOnly (s s1 : LexState) : Prop :=
  s1.buffer = s.buffer ∧ s1.indentStack = s.indentStack

theorem cursorOnly_refl (s : LexState) : cursorOnly s s := ⟨rfl, rfl⟩

theorem cursorOnly_trans {s s1 s2 : LexState} (h1 : cursorOnly s s1) (h2 : cursorOnly s1 s2) :
    cursorOnly s s2 := ⟨h2.1.trans h1.1, h2.2.trans h1.2⟩

theorem cursorOnly_nextChar (s : LexState) : cursorOnly s (s.nextChar).2 := by
  unfold LexState.nextChar
  by_cases h : s.pos < s.input.length <;> simp [h] <;> exact ⟨rfl, rfl⟩

theorem cursorOnly_backup (s : LexState) : cursorOnly s s.backup := ⟨rfl, rfl⟩

theorem cursorOnly_ignore (s : LexState) : cursorOnly s s.ignore := ⟨rfl, rfl⟩

theorem cursorOnly_accept (s : LexState) (v : List Char) : cursorOnly s (s.accept v).2 := by
  unfold LexState.accept
  have h1 := cursorOnly_nextChar s
  by_cases h2 : (s.nextChar).1 ∈ v <;> simp [h2]
  · exact h1
  · by_cases h3 : (s.nextChar).1 = EOFc <;> simp [h3]
    · exact h1
    · exact cursorOnly_trans h1 (cursorOnly_backup _)

theorem cursorOnly_acceptRunGo (v : List Char) : ∀ (l : List Char) (s : LexState),
    cursorOnly s (acceptRunGo v l s)
  | [], s => cursorOnly_refl s
  | c :: rest, s => by
    rw [acceptRunGo]
    by_cases h1 : c = EOFc <;> simp [h1]
    · exact ⟨rfl, rfl⟩
    · by_cases h2 : c ∈ v <;> simp [h2]
      · exact cursorOnly_trans (⟨rfl, rfl⟩ : cursorOnly s { s with pos := s.pos + 1 })
          (cursorOnly_acceptRunGo v rest _)
      · exact ⟨rfl, rfl⟩

theorem cursorOnly_acceptRun (s : LexState) (v : List Char) : cursorOnly s (s.acceptRun v) := by
  unfold LexState.acceptRun
  have h1 := cursorOnly_nextChar s
  by_cases h2 : (s.nextChar).1 ∈ v <;> simp [h2]
  · exact cursorOnly_trans h1 (cursorOnly_acceptRunGo v _ _)
  · exact cursorOnly_trans h1 (cursorOnly_backup _)

theorem cursorOnly_skipLineBreaksGo : ∀ (l : List Char) (s : LexState),
    cursorOnly s (skipLineBreaksGo l s)
  | [], s => cursorOnly_refl s
  | c :: rest, s => by
    rw [skipLineBreaksGo]
    by_cases h1 : c == '\n' <;> simp [h1]
    · exact cursorOnly_trans
        (⟨rfl, rfl⟩ : cursorOnly s { s with pos := s.pos + 1, start := s.pos + 1 })
        (cursorOnly_skipLineBreaksGo rest _)
    · exact cursorOnly_refl s

theorem cursorOnly_skipLineBreaks (s : LexState) : cursorOnly s (skipLineBreaks s) :=
  cursorOnly_skipLineBreaksGo _ s

theorem cursorOnly_getIndentDepth (s : LexState) : cursorOnly s (getIndentDepth s).2 :=
  cursorOnly_trans (cursorOnly_acceptRun s [' ']) (cursorOnly_ignore _)

theorem cursorOnly_lexCommentGo : ∀ (l : List Char) (s : LexState),
    cursorOnly s (lexCommentGo l s)
  | [], s => cursorOnly_ignore s
  | c :: rest, s => by
    rw [lexCommentGo]
    by_cases h1 : (isEOFc c || isLineBreak c) = true <;> simp [h1]
    · exact ⟨rfl, rfl⟩
    · exact cursorOnly_trans (⟨rfl, rfl⟩ : cursorOnly s { s with pos := s.pos + 1 })
        (cursorOnly_lexCommentGo rest _)

/-! ### Classification of the plain state functions -/

/-- What a non-indentation state function may do: append tokens that are
never Indent, Dedent or EOF, and install the stuck state if any of them is
an error token. -/
def plainStep (s s1 : LexState) (m1 : Mode) : Prop :=
  ∃ Δ, s1.buffer = s.buffer ++ Δ ∧ s1.indentStack = s.indentStack ∧
    (∀ t ∈ Δ, t.type ≠ .Indent ∧ t.type ≠ .Dedent ∧ t.type ≠ .EOF) ∧
    (∀ t ∈ Δ, t.type = .Error → m1 = .stuck)

theorem plainStep_of_cursor {s s1 : LexState} (h : cursorOnly s s1) (m1 : Mode) :
    plainStep s s1 m1 :=
  ⟨[], by simp [h.1], h.2, by simp, by simp⟩

theorem plainStep_congr {s s' s1 : LexState} {m1 : Mode} (h : cursorOnly s s')
    (hp : plainStep s' s1 m1) : plainStep s s1 m1 := by
  obtain ⟨Δ, h1, h2, h3, h4⟩ := hp
  exact ⟨Δ, by rw [h1, h.1], by rw [h2, h.2], h3, h4⟩

theorem plainStep_emitTok {s s' : LexState} (h : cursorOnly s s') (ty : TokenType)
    (h1 : ty ≠ .Indent) (h2 : ty ≠ .Dedent) (h3 : ty ≠ .EOF) (h4 : ty ≠ .Error) (m1 : Mode) :
    plainStep s (s'.emitTok ty) m1 := by
  refine plainStep_congr h ⟨[⟨ty, s'.currentSlice, s'.start⟩], rfl, rfl, ?_, ?_⟩
  · intro t ht
    rcases List.mem_singleton.mp ht with rfl
    exact ⟨h1, h2, h3⟩
  · intro t ht he
    rcases List.mem_singleton.mp ht with rfl
    exact absurd he h4

theorem plainStep_emitError {s s' : LexState} (h : cursorOnly s s') (msg : String) :
    plainStep s (s'.emitError msg) .stuck := by
  refine plainStep_congr h ⟨[⟨.Error, msg, s'.start⟩], rfl, rfl, ?_, ?_⟩
  · intro t ht
    rcases List.mem_singleton.mp ht with rfl
    exact ⟨(fun h => nomatch h), (fun h => nomatch h), (fun h => nomatch h)⟩
  · intro t ht he
    exact rfl

theorem lexAnyGo_plain : ∀ (l : List Char) (s : LexState),
    plainStep s (lexAnyGo l s).1 (lexAnyGo l s).2
  | [], s => plainStep_of_cursor (cursorOnly_refl s) _
  | c :: rest, s => by
    rw [lexAnyGo]
    have hcur : cursorOnly s ({ s with pos := s.pos + 1 } : LexState) := ⟨rfl, rfl⟩
    by_cases h1 : isEOFc c = true <;> simp only [h1, if_true, if_false, Bool.false_eq_true]
    · exact plainStep_of_cursor hcur _
    · by_cases h2 : isLineBreak c = true <;> simp only [h2, if_true, if_false, Bool.false_eq_true]
      · exact plainStep_of_cursor hcur _
      · by_cases h3 : isInlineWhitespace c = true <;>
          simp only [h3, if_true, if_false, Bool.false_eq_true]
        · exact plainStep_congr (cursorOnly_trans hcur (cursorOnly_ignore _))
            (lexAnyGo_plain rest _)
        · by_cases h4 : isComment c = true <;> simp only [h4, if_true, if_false, Bool.false_eq_true]
          · exact plainStep_of_cursor hcur _
          · by_cases h5 : isOperatorStart c = true <;>
              simp only [h5, if_true, if_false, Bool.false_eq_true]
            · exact plainStep_of_cursor (cursorOnly_trans hcur (cursorOnly_backup _)) _
            · by_cases h6 : isDoubleQuote c = true <;>
                simp only [h6, if_true, if_false, Bool.false_eq_true]
              · exact plainStep_of_cursor hcur _
              · by_cases h7 : isDigit c = true <;>
                  simp only [h7, if_true, if_false, Bool.false_eq_true]
                · exact plainStep_of_cursor (cursorOnly_trans hcur (cursorOnly_backup _)) _
                · by_cases h8 : isAlphaNumeric c = true <;>
                    simp only [h8, if_true, if_false, Bool.false_eq_true]
                  · exact plainStep_of_cursor (cursorOnly_trans hcur (cursorOnly_backup _)) _
                  · exact plainStep_emitError hcur _

theorem lexAnyF_plain (s : LexState) : plainStep s (lexAnyF s).1 (lexAnyF s).2 :=
  lexAnyGo_plain _ s

theorem lexCommentF_plain (s : LexState) : plainStep s (lexCommentF s) .any :=
  plainStep_of_cursor (cursorOnly_lexCommentGo _ s) _

theorem lexOperatorF_plain (s : LexState) :
    plainStep s (lexOperatorF s).1 (lexOperatorF s).2 := by
  rw [lexOperatorF]
  have hcur := cursorOnly_nextChar s
  by_cases h0 : (((s.nextChar).1 == '-') = true)
  · simp only [h0, if_true]
    exact plainStep_emitTok hcur _ (by decide) (by decide) (by decide) (by decide) _
  · simp only [h0, if_false, Bool.false_eq_true]
    by_cases h1 : (((s.nextChar).1 == ',') = true)
    · simp only [h1, if_true]
      exact plainStep_emitTok hcur _ (by decide) (by decide) (by decide) (by decide) _
    · simp only [h1, if_false, Bool.false_eq_true]
      by_cases h2 : (((s.nextChar).1 == ':') = true)
      · simp only [h2, if_true]
        exact plainStep_emitTok hcur _ (by decide) (by decide) (by decide) (by decide) _
      · simp only [h2, if_false, Bool.false_eq_true]
        by_cases h3 : (((s.nextChar).1 == ';') = true)
        · simp only [h3, if_true]
          exact plainStep_emitTok hcur _ (by decide) (by decide) (by decide) (by decide) _
        · simp only [h3, if_false, Bool.false_eq_true]
          by_cases h4 : (((s.nextChar).1 == '!') = true)
          · simp only [h4, if_true]
            exact plainStep_emitTok hcur _ (by decide) (by decide) (by decide) (by decide) _
          · simp only [h4, if_false, Bool.false_eq_true]
            by_cases h5 : (((s.nextChar).1 == '(') = true)
            · simp only [h5, if_true]
              exact plainStep_emitTok hcur _ (by decide) (by decide) (by decide) (by decide) _
            · simp only [h5, if_false, Bool.false_eq_true]
              by_cases h6 : (((s.nextChar).1 == ')') = true)
              · simp only [h6, if_true]
                exact plainStep_emitTok hcur _ (by decide) (by decide) (by decide) (by decide) _
              · simp only [h6, if_false, Bool.false_eq_true]
                by_cases h7 : (((s.nextChar).1 == '[') = true)
                · simp only [h7, if_true]
                  exact plainStep_emitTok hcur _ (by decide) (by decide) (by decide) (by decide) _
                · simp only [h7, if_false, Bool.false_eq_true]
                  by_cases h8 : (((s.nextChar).1 == ']') = true)
                  · simp only [h8, if_true]
                    exact plainStep_emitTok hcur _ (by decide) (by decide) (by decide) (by decide) _
                  · simp only [h8, if_false, Bool.false_eq_true]
                    by_cases h9 : (((s.nextChar).1 == '*') = true)
                    · simp only [h9, if_true]
                      exact plainStep_emitTok hcur _ (by decide) (by decide) (by decide) (by decide) _
                    · simp only [h9, if_false, Bool.false_eq_true]
                      by_cases h10 : (((s.nextChar).1 == '/') = true)
                      · simp only [h10, if_true]
                        exact plainStep_emitTok hcur _ (by decide) (by decide) (by decide) (by decide) _
                      · simp only [h10, if_false, Bool.false_eq_true]
                        by_cases h11 : (((s.nextChar).1 == '+') = true)
                        · simp only [h11, if_true]
                          exact plainStep_emitTok hcur _ (by decide) (by decide) (by decide) (by decide) _
                        · simp only [h11, if_false, Bool.false_eq_true]
                          by_cases h12 : (((s.nextChar).1 == '<') = true)
                          · simp only [h12, if_true]
                            exact plainStep_emitTok hcur _ (by decide) (by decide) (by decide) (by decide) _
                          · simp only [h12, if_false, Bool.false_eq_true]
                            by_cases h13 : (((s.nextChar).1 == '=') = true)
                            · simp only [h13, if_true]
                              exact plainStep_emitTok hcur _ (by decide) (by decide) (by decide) (by decide) _
                            · simp only [h13, if_false, Bool.false_eq_true]
                              by_cases h14 : (((s.nextChar).1 == '>') = true)
                              · simp only [h14, if_true]
                                exact plainStep_emitTok hcur _ (by decide) (by decide) (by decide) (by decide) _
                              · simp only [h14, if_false, Bool.false_eq_true]
                                exact plainStep_emitError hcur _

theorem lexStringGo_plain : ∀ (l : List Char) (s : LexState),
    plainStep s (lexStringGo l s).1 (lexStringGo l s).2
  | [], s => plainStep_emitError (cursorOnly_refl s) _
  | c :: rest, s => by
    rw [lexStringGo]
    have hcur : cursorOnly s ({ s with pos := s.pos + 1 } : LexState) := ⟨rfl, rfl⟩
    by_cases h1 : (isEOFc c || isLineBreak c) = true <;>
      simp only [h1, if_true, if_false, Bool.false_eq_true]
    · exact plainStep_emitError hcur _
    · by_cases h2 : isDoubleQuote c = true <;>
        simp only [h2, if_true, if_false, Bool.false_eq_true]
      · exact plainStep_emitTok hcur _ (by decide) (by decide) (by decide) (by decide) _
      · exact plainStep_congr hcur (lexStringGo_plain rest _)

theorem lexStringF_plain (s : LexState) : plainStep s (lexStringF s).1 (lexStringF s).2 :=
  lexStringGo_plain _ s

theorem lexNumberF_plain (s : LexState) :
    plainStep s (lexNumberF s).1 (lexNumberF s).2 := by
  rw [lexNumberF]
  have c1 := cursorOnly_acceptRun s digitChars
  have c2 : cursorOnly s
      (if (s.acceptRun digitChars).peekChar == '.' then
        ((s.acceptRun digitChars).nextChar).2.acceptRun digitChars
      else s.acceptRun digitChars) := by
    split_ifs
    · exact cursorOnly_trans c1 (cursorOnly_trans (cursorOnly_nextChar _)
        (cursorOnly_acceptRun _ _))
    · exact c1
  set s2 := if (s.acceptRun digitChars).peekChar == '.' then
      ((s.acceptRun digitChars).nextChar).2.acceptRun digitChars
    else s.acceptRun digitChars with hs2
  have c3 : cursorOnly s (if (s2.accept ['e', 'E']).1 then
      (((s2.accept ['e', 'E']).2.accept ['+', '-']).2).acceptRun digitChars
    else (s2.accept ['e', 'E']).2) := by
    split_ifs
    · exact cursorOnly_trans c2 (cursorOnly_trans (cursorOnly_accept _ _)
        (cursorOnly_trans (cursorOnly_accept _ _) (cursorOnly_acceptRun _ _)))
    · exact cursorOnly_trans c2 (cursorOnly_accept _ _)
  set s3 := if (s2.accept ['e', 'E']).1 then
      (((s2.accept ['e', 'E']).2.accept ['+', '-']).2).acceptRun digitChars
    else (s2.accept ['e', 'E']).2 with hs3
  by_cases h : isAlphaNumeric s3.peekChar = true <;>
    simp only [h, if_true, if_false, Bool.false_eq_true]
  · exact plainStep_emitError (cursorOnly_trans c3 (cursorOnly_nextChar _)) _
  · exact plainStep_emitTok c3 _ (by decide) (by decide) (by decide) (by decide) _

theorem keywords_not_special (w : String) :
    (keywords w).getD .Ident ≠ .Indent ∧ (keywords w).getD .Ident ≠ .Dedent ∧
    (keywords w).getD .Ident ≠ .EOF ∧ (keywords w).getD .Ident ≠ .Error := by
  rw [keywords]
  split_ifs <;> exact ⟨by decide, by decide, by decide, by decide⟩

theorem finishWord_plain {s s' : LexState} (h : cursorOnly s s') :
    plainStep s (finishWord s').1 (finishWord s').2 := by
  rw [finishWord]
  split_ifs
  · have hk := keywords_not_special s'.currentSlice
    exact plainStep_emitTok h _ hk.1 hk.2.1 hk.2.2.1 hk.2.2.2 _
  · exact plainStep_emitTok h _ (by decide) (by decide) (by decide) (by decide) _
  · exact plainStep_emitTok h _ (by decide) (by decide) (by decide) (by decide) _

theorem lexIdentifierGo_plain : ∀ (l : List Char) (s : LexState),
    plainStep s (lexIdentifierGo l s).1 (lexIdentifierGo l s).2
  | [], s => finishWord_plain (cursorOnly_refl s)
  | c :: rest, s => by
    rw [lexIdentifierGo]
    have hcur : cursorOnly s ({ s with pos := s.pos + 1 } : LexState) := ⟨rfl, rfl⟩
    by_cases h1 : isAlphaNumeric c = true <;>
      simp only [h1, if_true, if_false, Bool.false_eq_true]
    · exact plainStep_congr hcur (lexIdentifierGo_plain rest _)
    · by_cases h2 : isEOFc c = true <;> simp only [h2, if_true, if_false, Bool.false_eq_true]
      · exact finishWord_plain hcur
      · exact finishWord_plain (cursorOnly_trans hcur (cursorOnly_backup _))

theorem lexIdentifierF_plain (s : LexState) :
    plainStep s (lexIdentifierF s).1 (lexIdentifierF s).2 :=
  lexIdentifierGo_plain _ s

/-! ### The indentation-bearing state functions -/

theorem bal_allDedent {Δ : List Token} (h : ∀ t ∈ Δ, t.type = .Dedent) :
    bal Δ = -(Δ.length : Int) := by
  induction Δ with
  | nil => simp [bal]
  | cons t rest ih =>
    rw [bal_cons, ih (fun u hu => h u (by simp [hu]))]
    have ht := h t (by simp)
    rw [show bal [t] = -1 from by simp [bal, List.countP_cons, beq_iff_eq, ht]]
    simp only [List.length_cons]
    push_cast
    ring

theorem bal_single_indent {t : Token} (h : t.type = .Indent) : bal [t] = 1 := by
  simp [bal, List.countP_cons, beq_iff_eq, h]

/-- What the depth comparison of `lexLineBreak` does: append only Indent
and Dedent tokens, matched exactly by stack pushes and pops. -/
theorem lineBreakCompare_spec (depth : Nat) (s3 : LexState)
    (hg : goodStackB s3.indentStack = true) :
    ∃ Δ, (lexLineBreakCompare depth s3).1.buffer = s3.buffer ++ Δ ∧
      goodStackB (lexLineBreakCompare depth s3).1.indentStack = true ∧
      (((lexLineBreakCompare depth s3).1.indentStack.length : Int)
        = (s3.indentStack.length : Int) + bal Δ) ∧
      (∀ t ∈ Δ, t.type = .Indent ∨ t.type = .Dedent) ∧
      (lexLineBreakCompare depth s3).2 = .any := by
  rw [lexLineBreakCompare]
  split
  next hq => exact ⟨[], by simp, hg, by simp [bal_nil], by simp, rfl⟩
  next prev hq =>
    by_cases h1 : depth > prev
    · rw [if_pos h1]
      refine ⟨[⟨.Indent, s3.currentSlice, s3.start⟩], rfl, ?_, ?_, ?_, rfl⟩
      · show goodStackB (s3.indentStack ++ [depth]) = true
        obtain ⟨xs, hshape, ha⟩ := goodStack_shape hg
        rw [hshape] at hq ⊢
        rw [show (0 : Nat) :: xs ++ [depth] = 0 :: (xs ++ [depth]) from rfl, goodStackB]
        refine ascB_snoc 0 xs depth ha ?_ ?_
        · intro q hqq
          cases xs with
          | nil => cases hqq
          | cons x ys =>
            rw [List.getLast?_cons_cons, hqq] at hq
            cases hq
            exact h1
        · intro hxs
          subst hxs
          cases hq
          exact h1
      · rw [bal_single_indent rfl]
        show ((s3.indentStack ++ [depth]).length : Int) = _
        simp
      · intro t ht
        rcases List.mem_singleton.mp ht with rfl
        exact .inl rfl
    · rw [if_neg h1]
      by_cases h2 : depth < prev
      · rw [if_pos h2]
        obtain ⟨Δ, hbuf, hded, hlen, hgood, _⟩ :=
          clearGo_spec depth s3.indentStack.length s3 hg
        rw [show clearIndentToF depth s3 = clearIndentToGo depth s3.indentStack.length s3
          from rfl]
        refine ⟨Δ, hbuf, hgood, ?_, fun t ht => .inr (hded t ht), rfl⟩
        rw [bal_allDedent hded]
        show ((clearIndentToGo depth s3.indentStack.length s3).indentStack.length : Int)
          = (s3.indentStack.length : Int) + -(Δ.length : Int)
        omega
      · rw [if_neg h2]
        exact ⟨[], by simp, hg, by simp [bal_nil], by simp, rfl⟩

/-- What `lexLineBreak` may do when it returns normally. -/
theorem step_lineBreak {s s1 : LexState} {m1 : Mode}
    (h : lexLineBreakF s = .ok (s1, m1)) (hg : goodStackB s.indentStack = true) :
    ∃ Δ, s1.buffer = s.buffer ++ Δ ∧
      goodStackB s1.indentStack = true ∧
      ((s1.indentStack.length : Int) = (s.indentStack.length : Int) + bal Δ) ∧
      (∀ t ∈ Δ, t.type = .Indent ∨ t.type = .Dedent) ∧
      m1 ≠ .stuck := by
  rw [lexLineBreakF] at h
  have hc2 : cursorOnly s (skipLineBreaks s.ignore) :=
    cursorOnly_trans (cursorOnly_ignore s) (cursorOnly_skipLineBreaks _)
  by_cases he : isEOFc (skipLineBreaks s.ignore).peekChar = true
  · rw [if_pos he] at h
    rw [Except.ok.injEq, Prod.mk.injEq] at h
    obtain ⟨h1, h2⟩ := h
    subst h1; subst h2
    exact ⟨[], by simp [hc2.1], by rw [hc2.2]; exact hg, by simp [hc2.2, bal_nil], by simp,
      fun hx => by cases hx⟩
  · rw [if_neg he] at h
    by_cases hws : (decide ((getIndentDepth (skipLineBreaks s.ignore)).1 > 0)
        && isLineBreak ((getIndentDepth (skipLineBreaks s.ignore)).2).peekChar) = true
    · rw [if_pos hws] at h
      cases h
    · rw [if_neg hws] at h
      rw [Except.ok.injEq] at h
      have hc3 : cursorOnly s (getIndentDepth (skipLineBreaks s.ignore)).2 :=
        cursorOnly_trans hc2 (cursorOnly_getIndentDepth _)
      have hg3 : goodStackB ((getIndentDepth (skipLineBreaks s.ignore)).2).indentStack
          = true := by rw [hc3.2]; exact hg
      obtain ⟨Δ, hbuf, hgood, hlen, hcls, hmode⟩ :=
        lineBreakCompare_spec (getIndentDepth (skipLineBreaks s.ignore)).1
          (getIndentDepth (skipLineBreaks s.ignore)).2 hg3
      have hs1 : (lexLineBreakCompare (getIndentDepth (skipLineBreaks s.ignore)).1
          (getIndentDepth (skipLineBreaks s.ignore)).2).1 = s1 := by rw [h]
      have hm1 : (lexLineBreakCompare (getIndentDepth (skipLineBreaks s.ignore)).1
          (getIndentDepth (skipLineBreaks s.ignore)).2).2 = m1 := by rw [h]
      refine ⟨Δ, ?_, ?_, ?_, hcls, ?_⟩
      · rw [← hs1, hbuf, hc3.1]
      · rw [← hs1]; exact hgood
      · rw [← hs1, hlen, hc3.2]
      · rw [← hm1, hmode]; intro hx; cases hx

/-- What `lexEOF` does: emit the Dedents that unwind the stack to `[0]`,
then one EOF token, staying in the EOF state. -/
theorem step_eof {s : LexState} (hg : goodStackB s.indentStack = true) :
    ∃ Δ e, (lexEOFF s).1.buffer = s.buffer ++ Δ ++ [e] ∧ e.type = .EOF ∧
      (∀ t ∈ Δ, t.type = .Dedent) ∧
      (Δ.length + 1 = s.indentStack.length) ∧
      (lexEOFF s).1.indentStack = [0] ∧ (lexEOFF s).2 = .eof ∧
      (s.indentStack = [0] → Δ = []) := by
  obtain ⟨Δ, hbuf, hded, hlen, hgood, _⟩ :=
    clearGo_spec 0 s.indentStack.length s hg
  have hzero : (clearIndentToF 0 s).indentStack = [0] := clearF_zero s hg
  have hlenF : (clearIndentToF 0 s).indentStack.length + Δ.length = s.indentStack.length :=
    hlen
  rw [hzero] at hlenF
  refine ⟨Δ, ⟨.EOF, (clearIndentToF 0 s).currentSlice, (clearIndentToF 0 s).start⟩,
    ?_, rfl, hded, ?_, ?_, rfl, ?_⟩
  · show (clearIndentToF 0 s).buffer ++ _ = _
    rw [show (clearIndentToF 0 s).buffer
      = (clearIndentToGo 0 s.indentStack.length s).buffer from rfl, hbuf]
  · simp only [List.length_singleton] at hlenF
    omega
  · show ((clearIndentToF 0 s).emitTok .EOF).indentStack = [0]
    rw [show ((clearIndentToF 0 s).emitTok .EOF).indentStack
      = (clearIndentToF 0 s).indentStack from rfl, hzero]
  · intro h0
    rw [h0] at hlenF
    simp at hlenF
    exact hlenF

/-! ### The `nextToken` driver -/

theorem deliver_none {s : LexState} (h : deliver s = none) : s.buffer = [] := by
  rw [deliver] at h
  cases hb : s.buffer with
  | nil => rfl
  | cons t rest =>
    simp only [hb] at h
    by_cases ht : t.type = .Error
    · rw [if_pos ht] at h; cases h
    · rw [if_neg ht] at h; cases h

theorem deliver_some {s : LexState} {t : Token} {s' : LexState}
    (h : deliver s = some (t, s')) :
    ∃ rest, s.buffer = t :: rest ∧
      ((t.type = .Error ∧ s' = s) ∨
       (t.type ≠ .Error ∧ s' = { s with buffer := rest })) := by
  rw [deliver] at h
  cases hb : s.buffer with
  | nil => simp only [hb] at h; exact Option.noConfusion h
  | cons t0 rest =>
    simp only [hb] at h
    by_cases ht : t0.type = .Error
    · rw [if_pos ht] at h
      rw [Option.some.injEq, Prod.mk.injEq] at h
      obtain ⟨h1, h2⟩ := h
      subst h1; subst h2
      exact ⟨rest, rfl, .inl ⟨ht, rfl⟩⟩
    · rw [if_neg ht] at h
      rw [Option.some.injEq, Prod.mk.injEq] at h
      obtain ⟨h1, h2⟩ := h
      subst h1; subst h2
      exact ⟨rest, rfl, .inr ⟨ht, rfl⟩⟩

/-- Classification of one state-function invocation, combining the per-mode
lemmas: the buffer only grows by `Δ`, the stack stays well formed, the
stack length moves by exactly the Indent/Dedent balance of `Δ`, errors in
`Δ` force the stuck state, and EOFs in `Δ` come from the EOF state with a
fully unwound stack and sit at the very end. -/
theorem stepMode_spec {m : Mode} {s s1 : LexState} {m1 : Mode}
    (hm : m ≠ .stuck) (h : stepMode m s = .ok (s1, m1))
    (hg : goodStackB s.indentStack = true) :
    ∃ Δ, s1.buffer = s.buffer ++ Δ ∧
      goodStackB s1.indentStack = true ∧
      ((s1.indentStack.length : Int) = (s.indentStack.length : Int) + bal Δ) ∧
      (∀ t ∈ Δ, t.type = .Error → m1 = .stuck) ∧
      (hasEOFB Δ = true →
        m1 = .eof ∧ s1.indentStack = [0] ∧
        (∃ Δ0 e, Δ = Δ0 ++ [e] ∧ e.type = .EOF ∧ hasEOFB Δ0 = false) ∧
        (s.indentStack = [0] → ∃ e, Δ = [e] ∧ e.type = .EOF)) := by
  cases m with
  | stuck => exact absurd rfl hm
  | eof =>
    rw [stepMode] at h
    rw [Except.ok.injEq] at h
    obtain ⟨Δ, e, hbuf, he, hded, hlen, hstack, hmode, hzero⟩ := step_eof hg
    have hs1 : (lexEOFF s).1 = s1 := by rw [h]
    have hm1 : (lexEOFF s).2 = m1 := by rw [h]
    refine ⟨Δ ++ [e], ?_, ?_, ?_, ?_, ?_⟩
    · rw [← hs1, hbuf, List.append_assoc]
    · rw [← hs1, hstack]; rfl
    · rw [← hs1, hstack, bal_append, bal_allDedent hded,
        bal_single_of_other (by rw [he]; intro hc; cases hc) (by rw [he]; intro hc; cases hc)]
      simp only [List.length_singleton]
      omega
    · intro t ht herr
      rcases List.mem_append.mp ht with h2 | h2
      · rw [hded t h2] at herr; cases herr
      · rcases List.mem_singleton.mp h2 with rfl
        rw [he] at herr; cases herr
    · intro _
      refine ⟨by rw [← hm1, hmode], by rw [← hs1, hstack], ⟨Δ, e, rfl, he, ?_⟩, ?_⟩
      · exact allEOFB_hasEOFB_false fun t ht => by rw [hded t ht]; intro hc; cases hc
      · intro h0
        obtain rfl := hzero h0
        exact ⟨e, rfl, he⟩
  | lineBreak =>
    rw [stepMode] at h
    obtain ⟨Δ, hbuf, hgood, hlen, hcls, hne⟩ := step_lineBreak h hg
    refine ⟨Δ, hbuf, hgood, hlen, ?_, ?_⟩
    · intro t ht herr
      rcases hcls t ht with h2 | h2 <;> rw [h2] at herr <;> cases herr
    · intro heof
      exfalso
      rw [hasEOFB, List.any_eq_true] at heof
      obtain ⟨t, ht, h2⟩ := heof
      rw [beq_iff_eq] at h2
      rcases hcls t ht with h3 | h3 <;> rw [h3] at h2 <;> cases h2
  | any =>
    rw [stepMode] at h
    rw [Except.ok.injEq] at h
    obtain ⟨Δ, hbuf, hst, hcls, herr⟩ := lexAnyF_plain s
    have hs1 : (lexAnyF s).1 = s1 := by rw [h]
    have hm1 : (lexAnyF s).2 = m1 := by rw [h]
    refine ⟨Δ, by rw [← hs1, hbuf], by rw [← hs1, hst]; exact hg, ?_, ?_, ?_⟩
    · rw [← hs1, hst, bal_of_no_indent (fun t ht => ⟨(hcls t ht).1, (hcls t ht).2.1⟩)]
      simp
    · intro t ht he
      rw [← hm1]
      exact herr t ht he
    · intro heof
      exfalso
      rw [hasEOFB, List.any_eq_true] at heof
      obtain ⟨t, ht, h2⟩ := heof
      rw [beq_iff_eq] at h2
      exact (hcls t ht).2.2 h2
  | comment =>
    rw [stepMode] at h
    rw [Except.ok.injEq] at h
    obtain ⟨Δ, hbuf, hst, hcls, herr⟩ := lexCommentF_plain s
    have hs1 : lexCommentF s = s1 := by
      have := congrArg Prod.fst h
      simpa using this
    have hm1 : Mode.any = m1 := by
      have := congrArg Prod.snd h
      simpa using this
    refine ⟨Δ, by rw [← hs1, hbuf], by rw [← hs1, hst]; exact hg, ?_, ?_, ?_⟩
    · rw [← hs1, hst, bal_of_no_indent (fun t ht => ⟨(hcls t ht).1, (hcls t ht).2.1⟩)]
      simp
    · intro t ht he
      rw [← hm1]
      exact herr t ht he
    · intro heof
      exfalso
      rw [hasEOFB, List.any_eq_true] at heof
      obtain ⟨t, ht, h2⟩ := heof
      rw [beq_iff_eq] at h2
      exact (hcls t ht).2.2 h2
  | operator =>
    rw [stepMode] at h
    rw [Except.ok.injEq] at h
    obtain ⟨Δ, hbuf, hst, hcls, herr⟩ := lexOperatorF_plain s
    have hs1 : (lexOperatorF s).1 = s1 := by rw [h]
    have hm1 : (lexOperatorF s).2 = m1 := by rw [h]
    refine ⟨Δ, by rw [← hs1, hbuf], by rw [← hs1, hst]; exact hg, ?_, ?_, ?_⟩
    · rw [← hs1, hst, bal_of_no_indent (fun t ht => ⟨(hcls t ht).1, (hcls t ht).2.1⟩)]
      simp
    · intro t ht he
      rw [← hm1]
      exact herr t ht he
    · intro heof
      exfalso
      rw [hasEOFB, List.any_eq_true] at heof
      obtain ⟨t, ht, h2⟩ := heof
      rw [beq_iff_eq] at h2
      exact (hcls t ht).2.2 h2
  | str =>
    rw [stepMode] at h
    rw [Except.ok.injEq] at h
    obtain ⟨Δ, hbuf, hst, hcls, herr⟩ := lexStringF_plain s
    have hs1 : (lexStringF s).1 = s1 := by rw [h]
    have hm1 : (lexStringF s).2 = m1 := by rw [h]
    refine ⟨Δ, by rw [← hs1, hbuf], by rw [← hs1, hst]; exact hg, ?_, ?_, ?_⟩
    · rw [← hs1, hst, bal_of_no_indent (fun t ht => ⟨(hcls t ht).1, (hcls t ht).2.1⟩)]
      simp
    · intro t ht he
      rw [← hm1]
      exact herr t ht he
    · intro heof
      exfalso
      rw [hasEOFB, List.any_eq_true] at heof
      obtain ⟨t, ht, h2⟩ := heof
      rw [beq_iff_eq] at h2
      exact (hcls t ht).2.2 h2
  | num =>
    rw [stepMode] at h
    rw [Except.ok.injEq] at h
    obtain ⟨Δ, hbuf, hst, hcls, herr⟩ := lexNumberF_plain s
    have hs1 : (lexNumberF s).1 = s1 := by rw [h]
    have hm1 : (lexNumberF s).2 = m1 := by rw [h]
    refine ⟨Δ, by rw [← hs1, hbuf], by rw [← hs1, hst]; exact hg, ?_, ?_, ?_⟩
    · rw [← hs1, hst, bal_of_no_indent (fun t ht => ⟨(hcls t ht).1, (hcls t ht).2.1⟩)]
      simp
    · intro t ht he
      rw [← hm1]
      exact herr t ht he
    · intro heof
      exfalso
      rw [hasEOFB, List.any_eq_true] at heof
      obtain ⟨t, ht, h2⟩ := heof
      rw [beq_iff_eq] at h2
      exact (hcls t ht).2.2 h2
  | identMode =>
    rw [stepMode] at h
    rw [Except.ok.injEq] at h
    obtain ⟨Δ, hbuf, hst, hcls, herr⟩ := lexIdentifierF_plain s
    have hs1 : (lexIdentifierF s).1 = s1 := by rw [h]
    have hm1 : (lexIdentifierF s).2 = m1 := by rw [h]
    refine ⟨Δ, by rw [← hs1, hbuf], by rw [← hs1, hst]; exact hg, ?_, ?_, ?_⟩
    · rw [← hs1, hst, bal_of_no_indent (fun t ht => ⟨(hcls t ht).1, (hcls t ht).2.1⟩)]
      simp
    · intro t ht he
      rw [← hm1]
      exact herr t ht he
    · intro heof
      exfalso
      rw [hasEOFB, List.any_eq_true] at heof
      obtain ⟨t, ht, h2⟩ := heof
      rw [beq_iff_eq] at h2
      exact (hcls t ht).2.2 h2

/-- Delivery reasoning shared by the two arms of `pump1`: if the front of a
state's buffer is delivered and the invariant holds for that state, the
post-delivery facts follow. -/
theorem deliver_good {s2 : LexState} {t : Token} {s' : LexState}
    (hinv : lexInvP s2) (hdel : deliver s2 = some (t, s')) :
    lexInvP s' ∧ Q s' = Q s2 + bal [t] ∧
    (t.type = .EOF → s'.indentStack = [0] ∧ allEOFB s'.buffer = true) ∧
    (t.type = .Error → s'.mode = .stuck ∧ s'.buffer.head? = some t) := by
  obtain ⟨hg, hnoerr, heofinv⟩ := hinv
  obtain ⟨rest, hbuf, hcase⟩ := deliver_some hdel
  rcases hcase with ⟨herr, rfl⟩ | ⟨herr, rfl⟩
  · -- an error token is delivered and left in place: the state is unchanged
    have hstuck : s'.mode = .stuck := by
      by_cases hx : s'.mode = .stuck
      · exact hx
      · exact absurd (noErrB_head (hbuf ▸ hnoerr hx)) (fun hc => hc herr)
    have hnoEOF : hasEOFB s'.buffer = false := by
      cases he : hasEOFB s'.buffer with
      | false => rfl
      | true =>
        obtain ⟨hmode, _, _⟩ := heofinv he
        rw [hstuck] at hmode
        cases hmode
    refine ⟨⟨hg, fun hx => absurd hstuck hx,
      fun hx => absurd hx (by rw [hnoEOF]; intro hc; cases hc)⟩, ?_, ?_, ?_⟩
    · rw [bal_single_of_other (by rw [herr]; intro hc; cases hc)
        (by rw [herr]; intro hc; cases hc)]
      simp
    · intro hx; rw [hx] at herr; cases herr
    · intro _; exact ⟨hstuck, by rw [hbuf]; rfl⟩
  · -- an ordinary token is removed from the front
    have hmode : ({ s2 with buffer := rest } : LexState).mode = s2.mode := rfl
    have hstk : ({ s2 with buffer := rest } : LexState).indentStack = s2.indentStack := rfl
    have hrest : ({ s2 with buffer := rest } : LexState).buffer = rest := rfl
    refine ⟨⟨by rw [hstk]; exact hg, ?_, ?_⟩, ?_, ?_, ?_⟩
    · intro hx
      rw [hrest]
      exact noErrB_tail (hbuf ▸ hnoerr (by rw [hmode] at hx; exact hx))
    · intro hx
      rw [hrest] at hx
      rw [hmode, hstk, hrest]
      obtain ⟨hm2, hs2, hp2⟩ := heofinv (by rw [hbuf]; exact hasEOFB_cons_of_tail hx)
      exact ⟨hm2, hs2, postEOFok_tail (by rw [hbuf] at hp2; exact hp2)⟩
    · rw [Q, Q, hrest, hstk, hbuf, bal_cons]
      ring
    · intro hx
      obtain ⟨hm2, hs2, hp2⟩ := heofinv (by
        rw [hbuf]
        rw [hasEOFB, List.any_cons, Bool.or_eq_true]
        exact .inl (by rw [beq_iff_eq]; exact hx))
      rw [hbuf] at hp2
      exact ⟨by rw [hstk]; exact hs2, by rw [hrest]; exact postEOFok_front_eof hp2 hx⟩
    · intro hx; exact absurd hx herr

/-- One `pump1` iteration that continues the loop preserves the invariant
and the accounting quantity, with an empty buffer. -/
theorem pump1_step_inv {s s1 : LexState} {m1 : Mode}
    (hinv : lexInvP s) (hne : s.mode = .stuck → False)
    (hstep : stepMode s.mode s = .ok (s1, m1)) :
    lexInvP { s1 with mode := m1 } ∧ Q { s1 with mode := m1 } = Q s := by
  obtain ⟨hg, hnoerr, heofinv⟩ := hinv
  obtain ⟨Δ, hbuf, hgood, hlen, herrΔ, heofΔ⟩ :=
    stepMode_spec (fun hx => hne hx) hstep hg
  have hmode2 : ({ s1 with mode := m1 } : LexState).mode = m1 := rfl
  have hstk2 : ({ s1 with mode := m1 } : LexState).indentStack = s1.indentStack := rfl
  have hbuf2 : ({ s1 with mode := m1 } : LexState).buffer = s.buffer ++ Δ := by
    rw [show ({ s1 with mode := m1 } : LexState).buffer = s1.buffer from rfl, hbuf]
  have holdnoerr : noErrB s.buffer = true := hnoerr (fun hx => hne hx)
  constructor
  · refine ⟨by rw [hstk2]; exact hgood, ?_, ?_⟩
    · intro hx
      rw [hmode2] at hx
      rw [hbuf2]
      refine noErrB_append holdnoerr ?_
      rw [noErrB, List.all_eq_true]
      intro t2 ht2
      rw [Bool.not_eq_true', beq_eq_false_iff_ne]
      intro hc
      exact hx (herrΔ t2 ht2 hc)
    · intro hx
      rw [hbuf2] at hx
      rw [hmode2, hstk2, hbuf2]
      cases hold : hasEOFB s.buffer with
      | true =>
        -- an EOF was already pending: the scanner was in the EOF state on a
        -- `[0]` stack, so this step appended exactly one further EOF token
        obtain ⟨hm0, hs0, hp0⟩ := heofinv hold
        rw [hm0] at hstep
        rw [stepMode] at hstep
        rw [Except.ok.injEq] at hstep
        obtain ⟨Δ2, e2, hbufe, hee, hded2, hlen2, hstk0, hmodee, hzero⟩ := step_eof hg
        have hΔ2 : Δ2 = [] := hzero hs0
        rw [hΔ2] at hbufe
        simp only [List.append_nil, List.nil_append] at hbufe
        have hs1e : (lexEOFF s).1 = s1 := by rw [hstep]
        have hm1e : (lexEOFF s).2 = m1 := by rw [hstep]
        rw [hs1e] at hbufe hstk0
        rw [hm1e] at hmodee
        have hΔe : Δ = [e2] := by
          refine @List.append_cancel_left Token s.buffer Δ [e2] ?_
          rw [← hbuf, hbufe]
        refine ⟨hmodee.symm ▸ rfl, hstk0, ?_⟩
        rw [hΔe]
        exact postEOFok_append_eof hee hp0
      | false =>
        have hnew : hasEOFB Δ = true := by
          rw [hasEOFB, List.any_append, Bool.or_eq_true] at hx
          rcases hx with h1 | h1
          · rw [show (List.any s.buffer (fun t => t.type == .EOF)) = hasEOFB s.buffer
              from rfl, hold] at h1
            cases h1
          · exact h1
        rcases heofΔ hnew with ⟨hm1e, hs1e, ⟨Δ0, e, hΔ, he, hno0⟩, _⟩
        refine ⟨hm1e, hs1e, ?_⟩
        rw [hΔ, ← List.append_assoc]
        refine postEOFok_append_eof he (postEOFok_of_no_eof ?_)
        rw [hasEOFB, List.any_append, Bool.or_eq_false_iff]
        exact ⟨hold, hno0⟩
  · rw [Q, Q, hstk2, hbuf2, bal_append]
    have h2 : (s1.indentStack.length : Int) = (s.indentStack.length : Int) + bal Δ := hlen
    omega

/-- The `.inl (.tok ..)` outcome of one loop iteration. -/
theorem pump1_tok {s : LexState} {t : Token} {s' : LexState}
    (hinv : lexInvP s) (h : pump1 s = .inl (.tok t s')) :
    lexInvP s' ∧ Q s' = Q s + bal [t] ∧
    (t.type = .EOF → s'.indentStack = [0] ∧ allEOFB s'.buffer = true) ∧
    (t.type = .Error → s'.mode = .stuck ∧ s'.buffer.head? = some t) := by
  rw [pump1] at h
  split at h
  next hm =>
    split at h
    next t0 s0 hdel =>
      rw [Sum.inl.injEq, LexRes.tok.injEq] at h
      obtain ⟨h1, h2⟩ := h
      subst h1; subst h2
      exact deliver_good hinv hdel
    next hdel => simp at h
  next hmv hne =>
    split at h
    next msg hstep => simp at h
    next s1 m1 hstep =>
      obtain ⟨hs2inv, hQ2⟩ := pump1_step_inv hinv hne hstep
      split at h
      next t0 s0 hdel =>
        rw [Sum.inl.injEq, LexRes.tok.injEq] at h
        obtain ⟨h1, h2⟩ := h
        subst h1; subst h2
        obtain ⟨a, b, c, d⟩ := deliver_good hs2inv hdel
        exact ⟨a, by rw [b, hQ2], c, d⟩
      next hdel => simp at h

/-- The `.inr` (continue) outcome of one loop iteration. -/
theorem pump1_inr {s s2 : LexState}
    (hinv : lexInvP s) (h : pump1 s = .inr s2) :
    lexInvP s2 ∧ Q s2 = Q s := by
  rw [pump1] at h
  split at h
  next hm =>
    split at h
    next t0 s0 hdel => simp at h
    next hdel => simp at h
  next hmv hne =>
    split at h
    next msg hstep => simp at h
    next s1 m1 hstep =>
      obtain ⟨hs2inv, hQ2⟩ := pump1_step_inv hinv hne hstep
      split at h
      next t0 s0 hdel => simp at h
      next hdel =>
        rw [Sum.inr.injEq] at h
        subst h
        exact ⟨hs2inv, hQ2⟩

/-- The master step theorem for `nextToken`'s driver loop. -/
theorem pump_good : ∀ (n : Nat) (s : LexState) (t : Token) (s' : LexState),
    lexInvP s → pump n s = .tok t s' →
    lexInvP s' ∧ Q s' = Q s + bal [t] ∧
    (t.type = .EOF → s'.indentStack = [0] ∧ allEOFB s'.buffer = true) ∧
    (t.type = .Error → s'.mode = .stuck ∧ s'.buffer.head? = some t)
  | 0, s, t, s', _, h => by cases h
  | n + 1, s, t, s', hinv, h => by
    rw [pump] at h
    cases hp : pump1 s with
    | inl r =>
      rw [hp] at h
      have h2 : r = .tok t s' := h
      subst h2
      exact pump1_tok hinv hp
    | inr s2 =>
      rw [hp] at h
      have h2 : pump n s2 = .tok t s' := h
      obtain ⟨hinv2, hQ2⟩ := pump1_inr hinv hp
      obtain ⟨a, b, c, d⟩ := pump_good n s2 t s' hinv2 h2
      exact ⟨a, by rw [b, hQ2], c, d⟩

/-- The master step theorem at the `nextToken` level. -/
theorem nextToken_good {s : LexState} {t : Token} {s' : LexState}
    (hinv : lexInvP s) (h : nextToken s = .tok t s') :
    lexInvP s' ∧ Q s' = Q s + bal [t] ∧
    (t.type = .EOF → s'.indentStack = [0] ∧ allEOFB s'.buffer = true) ∧
    (t.type = .Error → s'.mode = .stuck ∧ s'.buffer.head? = some t) :=
  pump_good _ s t s' hinv h

/-! ### Runs of `nextToken` -/

theorem lexRun_nil_state : ∀ (n : Nat) (s : LexState),
    (lexRun n s).1 = [] → (lexRun n s).2 = s
  | 0, s, _ => rfl
  | n + 1, s, h => by
    rw [lexRun] at h ⊢
    cases hnt : nextToken s with
    | tok t s1 =>
      rw [hnt] at h
      simp at h
    | thrown msg => rfl
    | diverge => rfl

theorem lexRun_good : ∀ (n : Nat) (s : LexState), lexInvP s →
    lexInvP (lexRun n s).2 ∧
    Q (lexRun n s).2 = Q s + bal (lexRun n s).1 ∧
    (∀ t, (lexRun n s).1.getLast? = some t → t.type = .EOF →
      (lexRun n s).2.indentStack = [0] ∧ allEOFB (lexRun n s).2.buffer = true)
  | 0, s, hinv => ⟨hinv, by simp [lexRun, bal_nil], by intro t ht; cases ht⟩
  | n + 1, s, hinv => by
    have he : ∀ t s1, nextToken s = .tok t s1 →
        lexRun (n + 1) s = (t :: (lexRun n s1).1, (lexRun n s1).2) := by
      intro t s1 hnt
      rw [lexRun, hnt]
    cases hnt : nextToken s with
    | tok t s1 =>
      obtain ⟨hinv1, hQ1, hEOF1, hErr1⟩ := nextToken_good hinv hnt
      obtain ⟨hinv2, hQ2, hlast2⟩ := lexRun_good n s1 hinv1
      rw [he t s1 hnt]
      refine ⟨hinv2, ?_, ?_⟩
      · show Q (lexRun n s1).2 = Q s + bal (t :: (lexRun n s1).1)
        rw [bal_cons, hQ2, hQ1]
        ring
      · intro tl htl hteof
        cases hr : (lexRun n s1).1 with
        | nil =>
          rw [hr] at htl
          have htl2 : t = tl := by
            have : some t = some tl := htl
            exact Option.some.inj this
          subst htl2
          have hst : (lexRun n s1).2 = s1 := lexRun_nil_state n s1 hr
          rw [hst]
          exact hEOF1 hteof
        | cons a as =>
          rw [hr] at htl
          rw [List.getLast?_cons_cons] at htl
          have h5 := hlast2 tl (by rw [hr]; exact htl) hteof
          exact h5
    | thrown msg =>
      rw [show lexRun (n + 1) s = ([], s) from by rw [lexRun, hnt]]
      exact ⟨hinv, by simp [bal_nil], by intro t ht; cases ht⟩
    | diverge =>
      rw [show lexRun (n + 1) s = ([], s) from by rw [lexRun, hnt]]
      exact ⟨hinv, by simp [bal_nil], by intro t ht; cases ht⟩

theorem initLex_inv (input : List Char) : lexInvP (initLex input) := by
  refine ⟨rfl, fun _ => rfl, fun hx => ?_⟩
  cases hx

theorem Q_initLex (input : List Char) : Q (initLex input) = 0 := by
  rw [Q, initLex]
  simp [bal_nil, bal]

/-! ### The sticky-error fixpoint -/

theorem nextToken_sticky_fix {s' : LexState} {t : Token}
    (hstuck : s'.mode = .stuck) (hhead : s'.buffer.head? = some t)
    (herr : t.type = .Error) : nextToken s' = .tok t s' := by
  cases hb : s'.buffer with
  | nil => rw [hb] at hhead; cases hhead
  | cons a as =>
    rw [hb] at hhead
    obtain rfl : a = t := Option.some.inj hhead
    have hdel : deliver s' = some (a, s') := by
      rw [deliver]
      simp only [hb]
      rw [if_pos herr]
    have hp1 : pump1 s' = .inl (.tok a s') := by
      rw [pump1]
      simp only [hstuck, hdel]
    rw [nextToken]
    rw [show 2 * (s'.input.length - s'.pos) + 6
      = (2 * (s'.input.length - s'.pos) + 5) + 1 from rfl, pump, hp1]

theorem lexRun_fix {s' : LexState} {t : Token}
    (hfix : nextToken s' = .tok t s') :
    ∀ k, lexRun k s' = (List.replicate k t, s')
  | 0 => rfl
  | k + 1 => by
    rw [lexRun, hfix]
    show (t :: (lexRun k s').1, (lexRun k s').2) = (List.replicate (k + 1) t, s')
    rw [lexRun_fix hfix k]
    rfl

end MiniPy


namespace MiniPy

/-! ## The claims -/

/-- One-step unfolding of the driver loop at positive fuel. -/
theorem runG_succ {σ : Type} (ts : TokSrc σ) (n : Nat) (m : PM σ) :
    runG ts (n + 1) m = match stepG ts m with
      | .ok (.inl m') => runG ts n m'
      | .ok (.inr d) => .ok d
      | .error e => .error e := rfl

/-- The error of a program parse, if any. -/
def resultErr : Except PErr Program → Option PErr
  | .ok _ => none
  | .error e => some e

/-- A parse ended in one of the two outcomes the specification describes
for the infix loop: a successful return or a syntax error. -/
def isOkOrSyn : Except PErr Program → Bool
  | .ok _ => true
  | .error (.syn _ _ _) => true
  | .error _ => false

/-- A one-statement program holding a binary expression over two
identifiers whose operator token carries the given symbol. -/
def okBin (sym : String) (r : Except PErr Program) : Bool :=
  match r with
  | .ok ⟨[.exprStmt (.binaryExpr t (.ident _) (.ident _))]⟩ => t.literal == sym
  | _ => false

/-- The rendering of a successfully parsed expression. -/
def renderE (r : Except PErr Expr) : Option String :=
  match r with
  | .ok e => some (renderExpr e)
  | .error _ => none

/-! ### C1 -/

def c1Input : List Char := "if True:\n  a = b + c;\n".toList

/-- The program shape claimed for `c1Input`: one IfStmt, condition
rendering `True`, one body statement rendering `(= a (+ b c))`, no elif
clauses, no else clause. -/
def c1Check (r : Except PErr Program) : Bool :=
  match r with
  | .ok ⟨[.ifStmt cond (.mk [stmt]) [] none]⟩ =>
    renderExpr cond == "True" && renderStmt stmt == "(= a (+ b c))"
  | _ => false

/-- The token stream the scanner delivers for `c1Input`. -/
def c1Toks : List Token :=
  [⟨.Bool, "True", 3⟩, ⟨.Colon, ":", 7⟩, ⟨.Indent, "", 11⟩, ⟨.Ident, "a", 11⟩,
   ⟨.Assign, "=", 13⟩, ⟨.Ident, "b", 15⟩, ⟨.Plus, "+", 17⟩, ⟨.Ident, "c", 19⟩,
   ⟨.SemiColon, ";", 20⟩, ⟨.Dedent, "", 22⟩, ⟨.EOF, "", 22⟩]

theorem c1_streamOK : streamOK c1Input 11 = true := by decide

theorem c1_streamCurr : streamCurr c1Input = ⟨.If, "if", 0⟩ := by decide

theorem c1_streamToks : streamToks c1Input 11 = c1Toks := by decide

theorem c1_feed : c1Check (feedParse c1Input ⟨.If, "if", 0⟩ c1Toks) = true := by decide

/-- C1: the input `if True:\n  a = b + c;\n` parses to a program holding a
single IfStmt whose condition renders as `True`, whose primary block holds
exactly one statement rendering as `(= a (+ b c))`, with no elif clauses
and no else block. -/
theorem c1_if_program : c1Check (parse c1Input) = true := by
  rw [parse_by_feed c1Input 11 c1_streamOK, c1_streamCurr, c1_streamToks]
  exact c1_feed

/-! ### C2 -/

def c2Input : List Char := "a (1)".toList

/-- C2 counterexample: for `a (1)` the infix loop neither returns the
accumulated expression nor raises a syntax error — it dies calling the
missing infix rule, a dynamic TypeError. -/
theorem c2_counterexample :
    isOkOrSyn (parse c2Input) = false ∧
    resultErr (parse c2Input) = some (.typeErr "infixParselet is not a function") := by
  constructor
  · decide
  · decide

/-- C2 amended: in the infix loop of `parseExpr`, whenever the current
token's tabled precedence strictly exceeds `minPrecedence` but the token
has no infix rule, the parser neither returns the expression nor raises a
syntax error: it invokes the absent infix parselet unconditionally, which
fails with the dynamic TypeError `infixParselet is not a function` (the
expression-terminator check of `expectExprTerminator` belongs to
`parseExprStmt`, not to this loop). -/
theorem c2_infix_loop {σ : Type} (ts : TokSrc σ) (st : σ) (e : Expr) (minPrec : Nat)
    (rest : List Frame) (h1 : currPrecedenceG ts st > minPrec)
    (h2 : ledHasRule (ts.cur st).toSymbol = false) :
    stepG ts ⟨st, .retV (.expr e), .ledLoop minPrec :: rest⟩
      = .error (.typeErr "infixParselet is not a function") := by
  simp only [stepG]
  rw [if_pos h1, if_neg (by rw [h2]; intro hc; cases hc)]

theorem c2_infix_loop_witness :
    currPrecedenceG feedSrc (⟨[], ⟨.LeftParen, "(", 2⟩, []⟩ : PStateT) > 0 ∧
    ledHasRule ((⟨.LeftParen, "(", 2⟩ : Token).toSymbol) = false ∧
    stepG feedSrc ⟨⟨[], ⟨.LeftParen, "(", 2⟩, []⟩,
        .retV (.expr (.ident ⟨.Ident, "a", 0⟩)), [.ledLoop 0]⟩
      = .error (.typeErr "infixParselet is not a function") :=
  ⟨by decide, by decide,
    c2_infix_loop feedSrc ⟨[], ⟨.LeftParen, "(", 2⟩, []⟩ (.ident ⟨.Ident, "a", 0⟩) 0 []
      (by decide) (by decide)⟩

/-! ### C3 -/

/-- C3: equal-precedence binary operators associate to the left and the
precedence table is respected: `a+b+c` renders as `(+ (+ a b) c)`,
`a+b*c` as `(+ a (* b c))`, and `(a+b)*c` as `(* (+ a b) c)` with no
wrapper node for the parentheses. -/
theorem c3_assoc_precedence :
    renderE (parseOneExpr "a+b+c".toList) = some "(+ (+ a b) c)" ∧
    renderE (parseOneExpr "a+b*c".toList) = some "(+ a (* b c))" ∧
    renderE (parseOneExpr "(a+b)*c".toList) = some "(* (+ a b) c)" := by
  refine ⟨?_, ?_, ?_⟩
  · decide
  · decide
  · decide

/-! ### C4 -/

/-- C4: on every run of the scanner from a fresh state whose last returned
token is the EOF token, the number of Indent tokens returned equals the
number of Dedent tokens returned, and the indentation stack has been
unwound back to the bottom sentinel `[0]`. -/
theorem c4_indent_balance (input : List Char) (n : Nat) (t : Token)
    (hlast : (lexRun n (initLex input)).1.getLast? = some t)
    (heof : t.type = .EOF) :
    (lexRun n (initLex input)).1.countP (fun u => u.type == .Indent)
      = (lexRun n (initLex input)).1.countP (fun u => u.type == .Dedent) ∧
    (lexRun n (initLex input)).2.indentStack = [0] := by
  obtain ⟨hinv2, hQ2, hlast2⟩ := lexRun_good n (initLex input) (initLex_inv input)
  obtain ⟨hstk, hbuf⟩ := hlast2 t hlast heof
  rw [Q_initLex input] at hQ2
  have hQfin : Q (lexRun n (initLex input)).2 = 0 := by
    rw [Q, hstk, bal_allEOF hbuf]
    simp
  rw [hQfin] at hQ2
  have hbal : bal (lexRun n (initLex input)).1 = 0 := by omega
  rw [bal] at hbal
  refine ⟨?_, hstk⟩
  omega

theorem c4_indent_balance_witness :
    (lexRun 8 (initLex "if True:\n  a;\n".toList)).1.getLast?
      = some ⟨.EOF, "", 14⟩ ∧
    ((lexRun 8 (initLex "if True:\n  a;\n".toList)).1.countP (fun u => u.type == .Indent)
      = (lexRun 8 (initLex "if True:\n  a;\n".toList)).1.countP (fun u => u.type == .Dedent) ∧
    (lexRun 8 (initLex "if True:\n  a;\n".toList)).2.indentStack = [0]) :=
  ⟨by decide,
    c4_indent_balance "if True:\n  a;\n".toList 8 ⟨.EOF, "", 14⟩ (by decide) rfl⟩

/-! ### C5 -/

/-- C5: once `nextToken` has returned an error token from an invariant
state, the scanner is permanently stuck at it: the very next call returns
the same token with an unchanged state, and every run of `k` further calls
returns `k` copies of that same error token without moving the state. -/
theorem c5_sticky_error (s : LexState) (t : Token) (s' : LexState)
    (hinv : lexInvP s) (h : nextToken s = .tok t s') (herr : t.type = .Error) :
    nextToken s' = .tok t s' ∧ ∀ k, lexRun k s' = (List.replicate k t, s') := by
  obtain ⟨_, _, _, hd⟩ := nextToken_good hinv h
  have hfix := nextToken_sticky_fix (hd herr).1 (hd herr).2 herr
  exact ⟨hfix, lexRun_fix hfix⟩

theorem c5_sticky_error_witness :
    lexInvP (initLex "\"ab".toList) ∧
    (nextToken ⟨"\"ab".toList, 0, 2, .stuck,
        [⟨.Error, "unterminated string", 0⟩], [0]⟩
      = .tok ⟨.Error, "unterminated string", 0⟩
        ⟨"\"ab".toList, 0, 2, .stuck, [⟨.Error, "unterminated string", 0⟩], [0]⟩ ∧
    ∀ k, lexRun k (⟨"\"ab".toList, 0, 2, .stuck,
        [⟨.Error, "unterminated string", 0⟩], [0]⟩ : LexState)
      = (List.replicate k ⟨.Error, "unterminated string", 0⟩,
        ⟨"\"ab".toList, 0, 2, .stuck, [⟨.Error, "unterminated string", 0⟩], [0]⟩)) :=
  ⟨by decide,
    c5_sticky_error (initLex "\"ab".toList) ⟨.Error, "unterminated string", 0⟩
      ⟨"\"ab".toList, 0, 2, .stuck, [⟨.Error, "unterminated string", 0⟩], [0]⟩
      (by decide) (by decide) rfl⟩

/-! ### C6 -/

/-- C6 counterexample: six of the symbols the table lists do not parse as
binary expressions at all.  `<`, `>`, `<=`, `>=` are not even operator
characters to the scanner (an error token), and `==` / `!=` are scanned as
two separate tokens, failing in the parser. -/
theorem c6_counterexample :
    okBin "<" (parse "a<b;".toList) = false ∧
    okBin ">" (parse "a>b;".toList) = false ∧
    okBin "<=" (parse "a<=b;".toList) = false ∧
    okBin ">=" (parse "a>=b;".toList) = false ∧
    okBin "==" (parse "a==b;".toList) = false ∧
    okBin "!=" (parse "a!=b;".toList) = false := by
  refine ⟨?_, ?_, ?_, ?_, ?_, ?_⟩ <;> decide

/-- C6 amended: of the eleven symbols in the infix table, exactly `+`,
`-`, `*`, `/` and `=` parse an identifier-operator-identifier statement to
a BinaryExpr carrying that symbol.  `<`, `>`, `<=`, `>=` fail in the
scanner (`<`/`>` are not operator-start characters, so the parse stops
with `unexpected 'Error'`), and `==` / `!=` are scanned as two tokens, so
the parse fails with `unexpected '='` resp. `unexpected '!'`. -/
theorem c6_infix_table :
    (okBin "+" (parse "a+b;".toList) = true ∧
     okBin "-" (parse "a-b;".toList) = true ∧
     okBin "*" (parse "a*b;".toList) = true ∧
     okBin "/" (parse "a/b;".toList) = true ∧
     okBin "=" (parse "a=b;".toList) = true) ∧
    resultErr (parse "a<b;".toList) = some (.syn "unexpected 'Error'" 1 2) ∧
    resultErr (parse "a>b;".toList) = some (.syn "unexpected 'Error'" 1 2) ∧
    resultErr (parse "a<=b;".toList) = some (.syn "unexpected 'Error'" 1 2) ∧
    resultErr (parse "a>=b;".toList) = some (.syn "unexpected 'Error'" 1 2) ∧
    resultErr (parse "a==b;".toList) = some (.syn "unexpected '='" 1 3) ∧
    resultErr (parse "a!=b;".toList) = some (.syn "unexpected '!'" 1 2) := by
  refine ⟨⟨?_, ?_, ?_, ?_, ?_⟩, ?_, ?_, ?_, ?_, ?_, ?_⟩ <;> decide

/-! ### C7 -/

def c7Input : List Char := "a\n  \nb;".toList

/-- C7 counterexample: the blank-indented-line condition is not delivered
as a sticky error token converted to a syntax error — the scanner throws a
raw `Error`, which surfaces as a thrown exception, a different channel. -/
theorem c7_counterexample :
    resultErr (parse c7Input) = some (.thrownErr "no trailing whitespace") ∧
    isOkOrSyn (parse c7Input) = false := by
  constructor
  · decide
  · decide

/-- C7 amended: when `lexLineBreak` runs on a line holding only whitespace
with nonzero measured depth (not at end of input), `nextToken` does not
produce an error token at all: it propagates the raw thrown
`Error('no trailing whitespace')`. -/
theorem c7_blank_indent (s : LexState) (h1 : s.mode = .lineBreak)
    (h2 : isEOFc (skipLineBreaks s.ignore).peekChar = false)
    (h3 : (getIndentDepth (skipLineBreaks s.ignore)).1 > 0)
    (h4 : isLineBreak ((getIndentDepth (skipLineBreaks s.ignore)).2).peekChar = true) :
    nextToken s = .thrown "no trailing whitespace" := by
  have hlb : lexLineBreakF s = .error "no trailing whitespace" := by
    rw [lexLineBreakF]
    rw [if_neg (by rw [h2]; intro hc; cases hc)]
    rw [if_pos (by rw [h4, decide_eq_true h3]; rfl)]
  have hp1 : pump1 s = .inl (.thrown "no trailing whitespace") := by
    rw [pump1]
    simp only [h1, stepMode, hlb]
  rw [nextToken]
  rw [show 2 * (s.input.length - s.pos) + 6
    = (2 * (s.input.length - s.pos) + 5) + 1 from rfl, pump, hp1]

theorem c7_blank_indent_witness :
    nextToken (⟨"\n  \n".toList, 0, 0, .lineBreak, [], [0]⟩ : LexState)
      = .thrown "no trailing whitespace" :=
  c7_blank_indent ⟨"\n  \n".toList, 0, 0, .lineBreak, [], [0]⟩ rfl
    (by decide) (by decide) (by decide)

/-! ### C8 -/

def c8While : List Char := "while a:\n  if b:\n    c;\n".toList
def c8If : List Char := "if a:\n  if b:\n    c;\n".toList

/-- C8 counterexample: `while a:\n  if b:\n    c;\n` does not parse — the
nested `if` inside the block is rejected with `unexpected 'If'`. -/
theorem c8_counterexample :
    resultErr (parse c8While) = some (.syn "unexpected 'If'" 2 3) := by
  decide

/-- C8 amended: statements inside a block are **not** dispatched like the
top level — `Parser#parseBlock` parses every block entry with
`parseExprStmt`, so a nested `if` fails with `unexpected 'If'` (under
`while` and under `if` alike).  Top-level dispatch does reach
`parseWhileStmt`, but ast.ts exports no `WhileStmt` class, so even a
well-formed `while` with an expression body fails at node construction
with a TypeError. -/
theorem c8_block_dispatch :
    resultErr (parse c8While) = some (.syn "unexpected 'If'" 2 3) ∧
    resultErr (parse c8If) = some (.syn "unexpected 'If'" 2 3) ∧
    resultErr (parse "while a:\n  b;\n".toList)
      = some (.typeErr "ast.WhileStmt is not a constructor") := by
  refine ⟨?_, ?_, ?_⟩ <;> decide

/-! ### C10 -/

/-- C10 counterexample: an input of a blank line and an **indented**
comment line is only blank lines and comments, yet the parse fails with
`unexpected 'Indent'` at the comment's indentation — not `unexpected
'EOF'` at the end of the input. -/
theorem c10_counterexample :
    resultErr (parse "\n  # hi\n".toList) = some (.syn "unexpected 'Indent'" 2 3) := by
  decide

/-- C10 amended: `parseProg` always attempts one statement before its
end-of-input check, so whenever the freshly built parser's lookahead is
already the EOF token — the empty input, and blank-line / unindented
comment-only inputs — the parse raises `unexpected 'EOF'` located at that
token.  (An *indented* comment line instead makes the scanner emit an
Indent token first, and the parse fails on that token — see the
counterexample.) -/
theorem c10_empty_parse (input : List Char) (p0 : PState)
    (hmk : mkParserP input = .ok p0) (hinp : p0.lexer.input = input)
    (heof : p0.curr.type = .EOF) :
    parse input = .error (.syn "unexpected 'EOF'"
      (getLineCol input p0.curr.loc).1 (getLineCol input p0.curr.loc).2) := by
  have hsym : p0.curr.toSymbol = "EOF" := by
    rw [Token.toSymbol, heof]
    rfl
  have h1 : stepG realSrc (⟨p0, .stmtStart, [.progCollect []]⟩ : PM PState)
      = .ok (.inl ⟨p0, .exprStart 0, [.exprStmtEnd, .progCollect []]⟩) := by
    simp only [stepG, realSrc, heof]
  have h2 : stepG realSrc (⟨p0, .exprStart 0, [.exprStmtEnd, .progCollect []]⟩ : PM PState)
      = .error (.syn "unexpected 'EOF'"
        (getLineCol input p0.curr.loc).1 (getLineCol input p0.curr.loc).2) := by
    simp only [stepG, realSrc, fatalErrorG, hsym]
    rw [show nudTable "EOF" = none from rfl]
    rw [hinp]
    rfl
  have hrun : runG realSrc (progFuel input) ⟨p0, .stmtStart, [.progCollect []]⟩
      = .error (.syn "unexpected 'EOF'"
        (getLineCol input p0.curr.loc).1 (getLineCol input p0.curr.loc).2) := by
    rw [show progFuel input = (16 * input.length + 62) + 1 + 1 from rfl]
    rw [runG_succ, h1]
    show runG realSrc (16 * input.length + 63)
        ⟨p0, .exprStart 0, [.exprStmtEnd, .progCollect []]⟩
      = .error (.syn "unexpected 'EOF'"
        (getLineCol input p0.curr.loc).1 (getLineCol input p0.curr.loc).2)
    rw [show (16 * input.length + 63 : Nat) = (16 * input.length + 62) + 1 from rfl]
    rw [runG_succ, h2]
  simp only [parse, hmk]
  rw [hrun]

theorem c10_empty_parse_witness :
    mkParserP ([] : List Char)
      = .ok ⟨⟨[], 0, 0, .eof, [], [0]⟩, ⟨.EOF, "", 0⟩⟩ ∧
    parse ([] : List Char) = .error (.syn "unexpected 'EOF'"
      (getLineCol [] 0).1 (getLineCol [] 0).2) :=
  ⟨rfl,
    c10_empty_parse [] ⟨⟨[], 0, 0, .eof, [], [0]⟩, ⟨.EOF, "", 0⟩⟩
      rfl rfl rfl⟩

end MiniPy
